import Mathlib

/-!
# Verification of the `licht` bitfield codec and LIFX engine

This file is a shallow embedding, in Lean 4, of the core of the `licht`
repository (a client library for LIFX smart lights):

* the declarative bitfield codec of `licht/utils.py` (`FieldType`, `Field`,
  `Bitfield` with its byte-aligned `_to_bytes_simple` / `_from_bytes_simple`
  and bit-packed `_to_bytes_full` / `_from_bytes_full` paths),
* the concrete wire schemas of `licht/lifx.py` (`Frame`, `FrameAddress`,
  `ProtocolHeader`, `Header`, `HSBK`, ...),
* the response-classification entry point `LifxProtocol._parse_response`,
* the acknowledged-set bookkeeping of `LifxProtocol`
  (`register_ack_seq`, `_remove_ack`, sequence/ack future tables),
* the constructor `LifxBackend.__init__` and the colour scaling of
  `LifxBackend.fade_color`.

Modelling conventions:

* Python `bytes` objects are `List Nat` whose elements are below 256 (the
  bound is carried in hypotheses where it matters; Python guarantees it).
* Python `int` is `Int` (arbitrary precision, as in Python); `int.to_bytes`
  raising `OverflowError` is modelled by an `Option` result.
* Exceptions (`ValueError`) raised by parsing are `Except String`.
* IEEE-754 floats are modelled by their little-endian bit patterns
  (a 4- or 8-byte `List Nat`): `struct.unpack("<f")` followed by
  `struct.pack("<f")` is the identity on 4-byte patterns (and likewise for
  `"<d"` on 8-byte patterns), so the codec's behaviour on float fields is
  fully captured at the byte level without modelling float arithmetic.
* A Python `Bitfield` *class* is its field list together with its
  (metaclass-installed) `to_bytes` / `from_bytes` methods and `total_bytes`;
  a field whose `type` is a Bitfield subclass therefore stores, in the
  embedding, the nested class's `total_bytes` and its two methods
  (constructor `FType.nested`), exactly the data Python dispatches on.
* A Python record object's `_data` dict is an association list
  `List (String × Value)`; dict equality ignores entry order, so record
  observations go through `rfind` (dict lookup) throughout.
-/

/-! ## Bytes: little-endian conversions (`int.from_bytes` / `int.to_bytes`) -/

/-- Embeds `int.from_bytes(bs, "little")`: little-endian base-256 value of a byte
string. -/
def bytesToNat : List Nat → Nat
  | [] => 0
  | b :: bs => b + 256 * bytesToNat bs

/-- Embeds `n.to_bytes(len, "little")` for `0 ≤ n < 256^len`: the `len` little-endian
base-256 digits of `n`.  (Total function; callers that can overflow check the
range first, mirroring Python's `OverflowError`.) -/
def natToBytes : Nat → Nat → List Nat
  | _, 0 => []
  | n, len + 1 => n % 256 :: natToBytes (n / 256) len

/-- Embeds `int.from_bytes(bs, "little", signed=True)`: two's-complement read. -/
def intFromBytesSigned (bs : List Nat) : Int :=
  let n := bytesToNat bs
  if 2 * n < 2 ^ (8 * bs.length) then (n : Int) else (n : Int) - 2 ^ (8 * bs.length)

/-- Embeds `v.to_bytes(len, "little")` (unsigned): `none` models `OverflowError`. -/
def intToBytesUnsigned (v : Int) (len : Nat) : Option (List Nat) :=
  if 0 ≤ v ∧ v < (2 : Int) ^ (8 * len) then some (natToBytes v.toNat len) else none

/-- Embeds `v.to_bytes(len, "little", signed=True)`: two's-complement write; `none`
models `OverflowError`. -/
def intToBytesSigned (v : Int) (len : Nat) : Option (List Nat) :=
  if len = 0 then (if v = 0 then some [] else none)
  else if -(2 : Int) ^ (8 * len - 1) ≤ v ∧ v < (2 : Int) ^ (8 * len - 1) then
    some (natToBytes (v.emod ((2 : Int) ^ (8 * len))).toNat len)
  else none

/-! ## Values and field types -/

/-- A decoded field value (the Python objects stored in `Bitfield._data`).
`vfloat` carries the IEEE-754 bit pattern (see the header comment). -/
inductive Value where
  | vbytes (bs : List Nat)
  | vint (i : Int)
  | vbool (b : Bool)
  | vfloat (bs : List Nat)
  | vrec (r : List (String × Value))
deriving Repr

/-- A record value: the `_data` dict of a `Bitfield` instance. -/
abbrev Record := List (String × Value)

/-- Dict lookup `r[n]` on a record (`Bitfield.__getitem__`). -/
def rfind (r : Record) (n : String) : Option Value :=
  (r.find? (fun p => p.1 == n)).map Prod.snd

/-- The `type` slot of a `Field`: one of the five `FieldType` enum members,
or a `Bitfield` subclass, represented by its `total_bytes` and its
`to_bytes` / `from_bytes` methods (the only parts of the class the codec
dispatches on). -/
inductive FType where
  | bytes
  | int
  | uint
  | bool
  | float
  | nested (totalBytes : Nat) (enc : Record → Option (List Nat))
      (dec : List Nat → Except String Record)

/-- Predicate `FType.isPrim` is true for the five `FieldType` enum members. -/
def FType.isPrim : FType → Bool
  | .nested _ _ _ => false
  | _ => true

/-- One `Field(name, bits, type)` of a schema.  `name = none` is the
`RESERVED` marker. -/
structure BField where
  name : Option String
  bits : Nat
  ftype : FType

/-- A schema: the ordered `fields` list of a `Bitfield` subclass. -/
abbrev Schema := List BField

/-- Embeds `field_key_list`: names of the non-reserved fields, in order. -/
def fieldKeyList (fs : Schema) : List String := fs.filterMap BField.name

/-- Sum of the field widths in bits. -/
def sumBits (fs : Schema) : Nat := (fs.map BField.bits).sum

/-- Embeds `total_bytes = sum(f.bits for f in fields) // 8`. -/
def totalBytes (fs : Schema) : Nat := sumBits fs / 8

/-- The metaclass's choice of codec: `all(f.bits % 8 == 0 for f in fields)`. -/
def isSimple (fs : Schema) : Bool := fs.all (fun f => f.bits % 8 == 0)

/-! ## `FieldType.to_bytes_*` and `FieldType.from_bytes_*` -/

/-- Embeds `FieldType.to_bytes_bytes(value, length)`:
`bytes(value) + (length - len(value)) * b"\x00"`.  Note Python's negative
repetition count yields `b""`, so over-long values pass through untruncated;
`Nat` subtraction models this exactly. -/
def toBytesBytes (bs : List Nat) (len : Nat) : List Nat :=
  bs ++ List.replicate (len - bs.length) 0

/-- Embeds `FieldType.to_bytes(value, length)` dispatch, including the implicit
`TypeError`s of duck typing (`none`) and the float width check.  The `nested`
case is unreachable here (`Bitfield._get_value` intercepts Bitfield values
before calling `field.type.to_bytes`); it returns `none`. -/
def primToBytes : FType → Value → Nat → Option (List Nat)
  | .bytes, .vbytes bs, len => some (toBytesBytes bs len)
  | .int, .vint v, len => intToBytesSigned v len
  | .uint, .vint v, len => intToBytesUnsigned v len
  | .bool, .vbool b, len => intToBytesUnsigned (if b then 1 else 0) len
  | .float, .vfloat bs, len =>
      if (len = 4 ∨ len = 8) ∧ bs.length = len then some bs else none
  | _, _, _ => none

/-- Embeds `FieldType.from_bytes(value)` dispatch / a nested class's `from_bytes`.
(`field.type.from_bytes(field_bytes)` in both decoding paths.) -/
def ftypeFromBytes : FType → List Nat → Except String Value
  | .bytes, bs => .ok (.vbytes bs)
  | .int, bs => .ok (.vint (intFromBytesSigned bs))
  | .uint, bs => .ok (.vint (bytesToNat bs))
  | .bool, bs => .ok (.vbool (bytesToNat bs != 0))
  | .float, bs =>
      if bs.length = 4 ∨ bs.length = 8 then .ok (.vfloat bs)
      else .error "value for float must be 4 or 8 bytes"
  | .nested _ _ dec, bs => (dec bs).map .vrec

/-! ## `Bitfield` serialization -/

/-- The value branch of `Bitfield._get_value`: a `Bitfield` instance
serializes itself (`value.to_bytes()`); any other value goes through
`field.type.to_bytes(value, num_bytes)`.  A record value in a
primitive-typed field is `none` (in Python the value would carry its own
class's methods; the model's `vrec` carries none, and no repository schema
mixes the two). -/
def encValue (ft : FType) (v : Value) (numBytes : Nat) : Option (List Nat) :=
  match v, ft with
  | .vrec sub, .nested _ enc _ => enc sub
  | .vrec _, _ => none
  | v, ft => primToBytes ft v numBytes

/-- Embeds `Bitfield._get_value(field)`: reserved fields yield NULs; Bitfield-valued
fields serialize themselves; otherwise `field.type.to_bytes(value, num_bytes)`
with `num_bytes = (field.bits - 1) // 8 + 1`.  `none` models the `KeyError` /
`TypeError` on ill-formed records. -/
def getValue (r : Record) (f : BField) : Option (List Nat) :=
  let numBytes := (f.bits - 1) / 8 + 1
  match f.name with
  | none => some (List.replicate numBytes 0)
  | some n =>
    match rfind r n with
    | none => none
    | some v => encValue f.ftype v numBytes

/-- Embeds `Bitfield._to_bytes_simple`: concatenate each field's byte form. -/
def toBytesSimpleGo (fs : Schema) (r : Record) : Option (List Nat) :=
  match fs with
  | [] => some []
  | f :: rest => do
      let v ← getValue r f
      let vs ← toBytesSimpleGo rest r
      pure (v ++ vs)

/-- The packed group integer of `_to_bytes_full`:
`packed_val = (packed_val << bits) | (int.from_bytes(val[:(bits-1)//8+1],
"little") & ((1 << bits) - 1))` folded over the group. -/
def packFold (pack : List (List Nat × Nat)) : Nat :=
  pack.foldl
    (fun acc vb =>
      (acc <<< vb.2) ||| (bytesToNat (vb.1.take ((vb.2 - 1) / 8 + 1)) &&& ((1 <<< vb.2) - 1)))
    0

/-- Embeds `Bitfield._to_bytes_full`: accumulate `(value bytes, bits)` pairs until
the cumulative bit count reaches a byte boundary, then emit the group's
little-endian bytes.  A trailing unfinished group is dropped, as in the
Python loop. -/
def toBytesFullGo (fs : Schema) (r : Record) (packedBits : Nat)
    (pack : List (List Nat × Nat)) : Option (List Nat) :=
  match fs with
  | [] => some []
  | f :: rest => do
      let v ← getValue r f
      let packedBits := packedBits + f.bits
      let pack := pack ++ [(v, f.bits)]
      if packedBits % 8 == 0 then do
        let vs ← toBytesFullGo rest r 0 []
        pure (natToBytes (packFold pack) (packedBits / 8) ++ vs)
      else
        toBytesFullGo rest r packedBits pack

/-- Embeds `Bitfield.to_bytes`: the metaclass installs the simple codec when every
field width is a byte multiple, the full codec otherwise. -/
def toBytes (fs : Schema) (r : Record) : Option (List Nat) :=
  if isSimple fs then toBytesSimpleGo fs r else toBytesFullGo fs r 0 []

/-! ## `Bitfield` parsing -/

/-- Key-set equality check of `Bitfield.__init__`:
`set(kwargs.keys()) == field_keys`. -/
def sameKeys (xs ys : List String) : Bool :=
  xs.all (fun x => ys.contains x) && ys.all (fun y => xs.contains y)

/-- Body of `Bitfield._from_bytes_simple`: slice `field.bits // 8` bytes per
field in declaration order; reserved slices are read and discarded. -/
def fromBytesSimpleGo (fs : Schema) (data : List Nat) : Except String Record :=
  match fs with
  | [] => .ok []
  | f :: rest =>
    let fieldBytes := data.take (f.bits / 8)
    let restData := data.drop (f.bits / 8)
    match f.name with
    | none => fromBytesSimpleGo rest restData
    | some n => do
        let v ← ftypeFromBytes f.ftype fieldBytes
        let r ← fromBytesSimpleGo rest restData
        pure ((n, v) :: r)

/-- The inner loop of `_from_bytes_full` over `reversed(pack)`: extract the
low `bits` of the group integer (`value & ((1 << bits) - 1)`), rebuild the
field's bytes, decode unless reserved, shift the integer down. -/
def decodeGroup (packRev : Schema) (value : Nat) : Except String Record :=
  match packRev with
  | [] => .ok []
  | pf :: restP =>
    match pf.name with
    | none => decodeGroup restP (value >>> pf.bits)
    | some n => do
        let intVal := value &&& ((1 <<< pf.bits) - 1)
        let numBytes := (pf.bits - 1) / 8 + 1
        let v ← ftypeFromBytes pf.ftype (natToBytes intVal numBytes)
        let r ← decodeGroup restP (value >>> pf.bits)
        pure ((n, v) :: r)

/-- Body of `Bitfield._from_bytes_full`: accumulate fields until the byte
boundary, read the group's bytes as a little-endian integer, then decode the
group back-to-front.  Trailing unfinished groups are silently skipped (their
fields never reach the record), as in the Python loop. -/
def fromBytesFullGo (fs : Schema) (data : List Nat) (packedBits : Nat)
    (pack : Schema) : Except String Record :=
  match fs with
  | [] => .ok []
  | f :: rest =>
    let packedBits := packedBits + f.bits
    let pack := pack ++ [f]
    if packedBits % 8 == 0 then do
      let packBytes := data.take (packedBits / 8)
      let restData := data.drop (packedBits / 8)
      let value := bytesToNat packBytes
      let groupRec ← decodeGroup pack.reverse value
      let r ← fromBytesFullGo rest restData 0 []
      pure (groupRec ++ r)
    else
      fromBytesFullGo rest data packedBits pack

/-- Embeds `Bitfield.from_bytes`: length guard (`ValueError("missing data")`), the
metaclass-selected decoding body, then the `cls(**bitfield_data)` key-set
check (`ValueError("unexpected keys")`). -/
def fromBytes (fs : Schema) (data : List Nat) : Except String Record :=
  if data.length < totalBytes fs then .error "missing data"
  else do
    let r ← if isSimple fs then fromBytesSimpleGo fs data else fromBytesFullGo fs data 0 []
    if sameKeys (r.map Prod.fst) (fieldKeyList fs) then pure r
    else .error "unexpected keys"

/-- Using a `Bitfield` subclass as a field `type`: `Field.__new__` derives
the width from the class's `total_bytes`, and the codec dispatches to the
class's methods. -/
def mkNested (fs : Schema) : FType :=
  .nested (totalBytes fs) (toBytes fs) (fromBytes fs)

/-! ## Concrete schemas from the repository -/

/-- Embeds `Frame` (`licht/lifx.py`). -/
def frameFields : Schema :=
  [⟨some "size", 16, .uint⟩, ⟨some "origin", 2, .uint⟩, ⟨some "tagged", 1, .bool⟩,
   ⟨some "addressable", 1, .bool⟩, ⟨some "protocol", 12, .uint⟩, ⟨some "source", 32, .bytes⟩]

/-- Embeds `FrameAddress` (`licht/lifx.py`). -/
def frameAddressFields : Schema :=
  [⟨some "target", 64, .bytes⟩, ⟨none, 48, .bytes⟩, ⟨none, 6, .bytes⟩,
   ⟨some "ack_required", 1, .bool⟩, ⟨some "res_required", 1, .bool⟩,
   ⟨some "sequence", 8, .uint⟩]

/-- Embeds `ProtocolHeader` (`licht/lifx.py`). -/
def protocolHeaderFields : Schema :=
  [⟨none, 64, .bytes⟩, ⟨some "type", 16, .uint⟩, ⟨none, 16, .bytes⟩]

/-- Embeds `Header` (`licht/lifx.py`): three nested sub-records; each field's width
is derived by `Field.__new__` from the nested class's `total_bytes`. -/
def headerFields : Schema :=
  [⟨some "frame", 8 * totalBytes frameFields, mkNested frameFields⟩,
   ⟨some "frame_address", 8 * totalBytes frameAddressFields, mkNested frameAddressFields⟩,
   ⟨some "protocol_header", 8 * totalBytes protocolHeaderFields, mkNested protocolHeaderFields⟩]

/-- Embeds `HSBK` (`licht/lifx.py`). -/
def hsbkFields : Schema :=
  [⟨some "hue", 16, .uint⟩, ⟨some "saturation", 16, .uint⟩,
   ⟨some "brightness", 16, .uint⟩, ⟨some "kelvin", 16, .uint⟩]

/-! ## Response classification (`LifxProtocol._parse_response`) -/

/-- The integer codes of the `MessageType` enum (`licht/lifx.py`). -/
def messageTypeCodes : List Nat :=
  [2, 3, 12, 13, 14, 15, 16, 17, 18, 19, 20, 21, 22, 23, 24, 25, 32, 33, 34, 35,
   45, 48, 50, 51, 53, 58, 59, 101, 102, 107, 116, 117, 118]

/-- Embeds `header["frame"]["size"]` of a parsed header record. -/
def headerFrameSize (header : Record) : Nat :=
  match rfind header "frame" with
  | some (.vrec fr) =>
    match rfind fr "size" with
    | some (.vint k) => k.toNat
    | _ => 0
  | _ => 0

/-- Embeds `ProtocolHeader.payload_type` via `Header.payload_type`: the `type` code
if it is a member of the `MessageType` enum, else `None`. -/
def payloadType (header : Record) : Option Nat :=
  match rfind header "protocol_header" with
  | some (.vrec ph) =>
    match rfind ph "type" with
    | some (.vint t) => if messageTypeCodes.contains t.toNat then some t.toNat else none
    | _ => none
  | _ => none

/-- Embeds `LifxProtocol._parse_response(data)`: parse the 36-byte header (which can
raise `ValueError("missing data")`, modelled by `.error`); an unknown type
code returns `None` (`.ok none`, the dropped-datagram case); otherwise the
payload slice `data[Header.total_bytes : header["frame"]["size"]]` is
returned with the header. -/
def parseResponse (data : List Nat) : Except String (Option (Record × List Nat)) :=
  match fromBytes headerFields data with
  | .error e => .error e
  | .ok header =>
    match payloadType header with
    | none => .ok none
    | some _ =>
        .ok (some (header, (data.take (headerFrameSize header)).drop (totalBytes headerFields)))

/-! ## Backend construction (`LifxBackend.__init__`) -/

/-- The engine configuration fields set by `LifxBackend.__init__`. -/
structure LifxBackendCfg where
  sourceId : List Nat
  timeout : ℚ
  tries : Nat
deriving Repr

/-- Embeds `LifxBackend.__init__(self, source_id=b"lcht", timeout=3, tries=3)` —
embedded verbatim: the body executes `self.timeout = 3` and `self.tries = 3`
(the literal constant `3`, not the parameters), so the `timeout` and `tries`
arguments are accepted and then ignored.  `licht/__init__.py`'s
`Lifx.__init__` has the same two assignments. -/
def lifxBackendInit (sourceId : List Nat) (timeout : ℚ) (tries : Nat) : LifxBackendCfg :=
  { sourceId := sourceId, timeout := 3, tries := 3 }

/-- The retry spacing `asyncio.sleep(self.timeout / self.tries)` used by
`_send_discover_packets`, `_get_packet_response` and `_send_set_packet`. -/
def retryInterval (cfg : LifxBackendCfg) : ℚ := cfg.timeout / cfg.tries

/-! ## Colour scaling (`LifxBackend.fade_color`, `LightColor` branch) -/

/-- Python `int(q)`: truncation toward zero.  `fade_color` computes
`int(h * 65535 / 360)` etc. with float arithmetic; the model uses exact
rationals, which agree with the float computation at every input appearing
in a theorem below. -/
def pyInt (q : ℚ) : Int := if 0 ≤ q then ⌊q⌋ else -⌊-q⌋

/-- The raw 16-bit hue computed by `fade_color`: `h = int(h * 65535 / 360)`. -/
def fadeColorRawHue (h : ℚ) : Int := pyInt (h * 65535 / 360)

/-- The HSBK record built by `fade_color(light, LightColor(h, s, b), ms)`:
`HSBK(int(h*65535/360), int(s*65535), int(b*65535), 3500)`, positional
construction in `hsbkFields` order. -/
def fadeColorHSBK (h s b : ℚ) : Record :=
  [("hue", .vint (fadeColorRawHue h)),
   ("saturation", .vint (pyInt (s * 65535))),
   ("brightness", .vint (pyInt (b * 65535))),
   ("kelvin", .vint 3500)]

/-- Modelled from the spec's words (for comparison with `fadeColorRawHue`):
"Hue degrees in [0,360) ↔ 16-bit unsigned scaled as `raw = round(h·65535/360)`". -/
def specRawHue (h : ℚ) : Int := round (h * 65535 / 360)

/-! ## Acknowledgement bookkeeping (`LifxProtocol`)

The tables `_seq_futures` (dict keyed by `((host, port, target), seq)`) and
`_ack_futures` (dict keyed by the ack future, holding the list of sequence
keys registered for it).  Addresses are an arbitrary type `α` with decidable
equality; ack futures are identified by `Nat` ids, with a `done` list
recording futures on which `set_result` or `cancel` has been called. -/

/-- Dict lookup on an association list. -/
def alookup {α β : Type} [DecidableEq α] (l : List (α × β)) (k : α) : Option β :=
  (l.find? (fun p => decide (p.1 = k))).map Prod.snd

/-- Dict assignment `d[k] = v` for a key already present. -/
def dupdate {α β : Type} [DecidableEq α] (l : List (α × β)) (k : α) (v : β) :
    List (α × β) :=
  l.map (fun p => if p.1 = k then (k, v) else p)

/-- Dict deletion `del d[k]`. -/
def dremove {α β : Type} [DecidableEq α] (l : List (α × β)) (k : α) : List (α × β) :=
  l.filter (fun p => decide (p.1 ≠ k))

/-- The waiter state of one `LifxProtocol` instance, restricted to the
acknowledgement tables. -/
structure ProtoAckState (α : Type) where
  seqFutures : List ((α × Nat) × Nat)
  ackFutures : List (Nat × List (α × Nat))
  done : List Nat
  nextAck : Nat

/-- Embeds `LifxProtocol.get_ack`: create a fresh future with an empty key list. -/
def getAck {α : Type} (s : ProtoAckState α) : Nat × ProtoAckState α :=
  (s.nextAck,
   { s with ackFutures := (s.nextAck, []) :: s.ackFutures, nextAck := s.nextAck + 1 })

/-- Embeds `LifxProtocol.register_ack_seq(ack, addr, seq)`: a silent no-op when the
future is unknown; `ValueError("already registered")` when the key is taken;
otherwise append the key to the future's list and bind it in `_seq_futures`. -/
def registerAckSeq {α : Type} [DecidableEq α] (s : ProtoAckState α) (ack : Nat)
    (addr : α) (seq : Nat) : Except String (ProtoAckState α) :=
  match alookup s.ackFutures ack with
  | none => .ok s
  | some keys =>
    if (alookup s.seqFutures (addr, seq)).isSome then .error "already registered"
    else .ok { s with
      ackFutures := dupdate s.ackFutures ack (keys ++ [(addr, seq)]),
      seqFutures := ((addr, seq), ack) :: s.seqFutures }

/-- Embeds `LifxProtocol._remove_ack(ack)`: delete every key in the future's list
from `_seq_futures`, then delete the future's own entry. -/
def removeAck {α : Type} [DecidableEq α] (s : ProtoAckState α) (ack : Nat) :
    ProtoAckState α :=
  match alookup s.ackFutures ack with
  | none => s
  | some keys =>
    { s with seqFutures := s.seqFutures.filter (fun kv => decide (kv.1 ∉ keys)),
             ackFutures := dremove s.ackFutures ack }

/-- The `Acknowledgement` branch of `LifxProtocol.datagram_received`: look up
`((host, port, target), seq)`; on a hit call `set_result(True)` on the bound
future (`InvalidStateError` if it is already done — modelled as `.error`); a
miss silently drops the datagram. -/
def datagramReceivedAck {α : Type} [DecidableEq α] (s : ProtoAckState α)
    (addr : α) (seq : Nat) : Except String (ProtoAckState α) :=
  match alookup s.seqFutures (addr, seq) with
  | none => .ok s
  | some ack =>
    if ack ∈ s.done then .error "InvalidStateError"
    else .ok { s with done := ack :: s.done }

/-- The `finally:` clause of `LifxProtocol.wait_ack` — runs `_remove_ack`
when the awaited future completes (by result or cancellation). -/
def waitAckCleanup {α : Type} [DecidableEq α] (s : ProtoAckState α) (ack : Nat) :
    ProtoAckState α :=
  removeAck s ack

/-- Embeds `LifxProtocol.cancel_ack(ack)`: cancel the future (marking it done so a
later `set_result` would raise) and run `_remove_ack`. -/
def cancelAck {α : Type} [DecidableEq α] (s : ProtoAckState α) (ack : Nat) :
    ProtoAckState α :=
  removeAck { s with done := if ack ∈ s.done then s.done else ack :: s.done } ack

/-! ## Well-typed record values

`WTValue st ft bits v` says `v` is a well-typed value for a field of width
`bits` and type `ft`, bundled with the data-model invariants of the schema
(§3 of the spec: widths positive, totals multiples of 8, nested widths
derived from the nested schema).  The flag `st` switches on the extra
requirement that *signed* fields are byte-aligned; `st = false` is plain
well-typedness as the spec states it. -/
mutual
inductive WTValue : Bool → FType → Nat → Value → Prop where
  | vbytes (st : Bool) (bits : Nat) (bs : List Nat) :
      bits % 8 = 0 → bs.length = bits / 8 → (∀ b ∈ bs, b < 256) →
      WTValue st .bytes bits (.vbytes bs)
  | vint (st : Bool) (bits : Nat) (i : Int) :
      -(2 : Int) ^ (bits - 1) ≤ i → i < (2 : Int) ^ (bits - 1) →
      (st = true → bits % 8 = 0) →
      WTValue st .int bits (.vint i)
  | vuint (st : Bool) (bits : Nat) (n : Nat) :
      n < 2 ^ bits → WTValue st .uint bits (.vint n)
  | vbool (st : Bool) (bits : Nat) (b : Bool) : WTValue st .bool bits (.vbool b)
  | vfloat (st : Bool) (bits : Nat) (bs : List Nat) :
      (bits = 32 ∨ bits = 64) → bs.length = bits / 8 → (∀ b ∈ bs, b < 256) →
      WTValue st .float bits (.vfloat bs)
  | vrec (st : Bool) (sub : Schema) (r : Record) :
      WTRecord st sub r → sumBits sub % 8 = 0 → (fieldKeyList sub).Nodup →
      WTValue st (mkNested sub) (8 * totalBytes sub) (.vrec r)

inductive WTRecord : Bool → Schema → Record → Prop where
  | nil (st : Bool) (r : Record) : WTRecord st [] r
  | consReserved (st : Bool) (f : BField) (fs : Schema) (r : Record) :
      f.name = none → 0 < f.bits → WTRecord st fs r → WTRecord st (f :: fs) r
  | consNamed (st : Bool) (f : BField) (fs : Schema) (r : Record) (n : String) (v : Value) :
      f.name = some n → 0 < f.bits → rfind r n = some v →
      WTValue st f.ftype f.bits v →
      WTRecord st fs r → WTRecord st (f :: fs) r
end

/-! ## Schema-directed record equivalence

Python compares `Bitfield` records through their `_data` dicts; dict
equality ignores entry order.  `REquiv fs r₁ r₂` says `r₁` and `r₂` agree on
every non-reserved field of `fs` — for nested fields, recursively in the
same sense.  This is "equal on every non-reserved field" as the spec's
round-trip property states it. -/
mutual
inductive VEquiv : FType → Value → Value → Prop where
  | prim (ft : FType) (v : Value) : ft.isPrim = true → VEquiv ft v v
  | nested (sub : Schema) (r₁ r₂ : Record) :
      REquiv sub r₁ r₂ → VEquiv (mkNested sub) (.vrec r₁) (.vrec r₂)

inductive REquiv : Schema → Record → Record → Prop where
  | nil (r₁ r₂ : Record) : REquiv [] r₁ r₂
  | consReserved (f : BField) (fs : Schema) (r₁ r₂ : Record) :
      f.name = none → REquiv fs r₁ r₂ → REquiv (f :: fs) r₁ r₂
  | consNamed (f : BField) (fs : Schema) (r₁ r₂ : Record) (n : String) (v₁ v₂ : Value) :
      f.name = some n → rfind r₁ n = some v₁ → rfind r₂ n = some v₂ →
      VEquiv f.ftype v₁ v₂ → REquiv fs r₁ r₂ → REquiv (f :: fs) r₁ r₂
end

/-! ## Little-endian byte arithmetic -/

theorem natToBytes_length (n len : Nat) : (natToBytes n len).length = len := by
  induction len generalizing n with
  | zero => rfl
  | succ k ih => simp [natToBytes, ih]

theorem natToBytes_lt (n len : Nat) : ∀ b ∈ natToBytes n len, b < 256 := by
  induction len generalizing n with
  | zero => simp [natToBytes]
  | succ k ih =>
    simp only [natToBytes, List.mem_cons]
    rintro b (rfl | hb)
    · exact Nat.mod_lt _ (by norm_num)
    · exact ih _ _ hb

theorem bytesToNat_natToBytes {n len : Nat} (h : n < 256 ^ len) :
    bytesToNat (natToBytes n len) = n := by
  induction len generalizing n with
  | zero => simp_all [natToBytes, bytesToNat, Nat.lt_one_iff]
  | succ k ih =>
    have hdiv : n / 256 < 256 ^ k := by
      rw [Nat.div_lt_iff_lt_mul (by norm_num)]
      calc n < 256 ^ (k + 1) := h
        _ = 256 ^ k * 256 := by ring
    simp [natToBytes, bytesToNat, ih hdiv, Nat.mod_add_div']
    omega
theorem natToBytes_bytesToNat {bs : List Nat} (h : ∀ b ∈ bs, b < 256) :
    natToBytes (bytesToNat bs) bs.length = bs := by
  induction bs with
  | nil => rfl
  | cons b bs ih =>
    have hb : b < 256 := h b (by simp)
    have hrest : ∀ x ∈ bs, x < 256 := fun x hx => h x (by simp [hx])
    simp only [bytesToNat, List.length_cons, natToBytes]
    rw [show (b + 256 * bytesToNat bs) / 256 = bytesToNat bs by omega,
      show (b + 256 * bytesToNat bs) % 256 = b by omega, ih hrest]

theorem bytesToNat_lt {bs : List Nat} (h : ∀ b ∈ bs, b < 256) :
    bytesToNat bs < 256 ^ bs.length := by
  induction bs with
  | nil => simp [bytesToNat]
  | cons b bs ih =>
    have hb : b < 256 := h b (by simp)
    have hrest := ih (fun x hx => h x (by simp [hx]))
    simp only [bytesToNat, List.length_cons, pow_succ]
    calc b + 256 * bytesToNat bs < 256 + 256 * bytesToNat bs := by omega
      _ = 256 * (bytesToNat bs + 1) := by ring
      _ ≤ 256 * 256 ^ bs.length := by
          exact Nat.mul_le_mul_left _ (by omega)
      _ = 256 ^ bs.length * 256 := by ring

theorem bytesToNat_append (xs ys : List Nat) :
    bytesToNat (xs ++ ys) = bytesToNat xs + 256 ^ xs.length * bytesToNat ys := by
  induction xs with
  | nil => simp [bytesToNat]
  | cons x xs ih => simp [bytesToNat, ih, pow_succ]; ring

theorem pow_256_eq_two_pow (k : Nat) : 256 ^ k = 2 ^ (8 * k) := by
  rw [show (256 : Nat) = 2 ^ 8 by norm_num, ← pow_mul]

/-! ## Integer codec lemmas -/

theorem intToBytesUnsigned_spec {v : Int} {len : Nat} {es : List Nat}
    (h : intToBytesUnsigned v len = some es) :
    es.length = len ∧ (∀ b ∈ es, b < 256) ∧ 0 ≤ v ∧ v < (2 : Int) ^ (8 * len) ∧
      (bytesToNat es : Int) = v := by
  unfold intToBytesUnsigned at h
  split at h
  · rename_i hrange
    obtain ⟨h0, hlt⟩ := hrange
    cases h
    have hnat : v.toNat < 256 ^ len := by
      have : (v.toNat : Int) < (2 : Int) ^ (8 * len) := by rwa [Int.toNat_of_nonneg h0]
      have h2 : ((256 : Nat) ^ len : Int) = (2 : Int) ^ (8 * len) := by
        push_cast
        rw [show (256 : Int) = 2 ^ 8 by norm_num, ← pow_mul]
      exact_mod_cast this.trans_eq h2.symm
    refine ⟨natToBytes_length _ _, natToBytes_lt _ _, h0, hlt, ?_⟩
    rw [bytesToNat_natToBytes hnat, Int.toNat_of_nonneg h0]
  · cases h

theorem intToBytesUnsigned_some {v : Int} {len : Nat} (h0 : 0 ≤ v)
    (hlt : v < (2 : Int) ^ (8 * len)) :
    intToBytesUnsigned v len = some (natToBytes v.toNat len) := by
  unfold intToBytesUnsigned
  rw [if_pos ⟨h0, hlt⟩]

theorem intToBytesSigned_spec {v : Int} {len : Nat} {es : List Nat}
    (h : intToBytesSigned v len = some es) :
    es.length = len ∧ (∀ b ∈ es, b < 256) ∧ intFromBytesSigned es = v ∧
      (bytesToNat es : Int) = v.emod ((2 : Int) ^ (8 * len)) := by
  unfold intToBytesSigned at h
  split at h
  · rename_i hlen
    subst hlen
    split at h
    · rename_i hv
      cases h
      subst hv
      refine ⟨rfl, by simp, ?_, by show ((bytesToNat [] : Nat) : Int) = 0 % 2 ^ (8 * 0); simp [bytesToNat]⟩
      simp [intFromBytesSigned, bytesToNat]
    · cases h
  · rename_i hlen
    split at h
    · rename_i hrange
      obtain ⟨hlo, hhi⟩ := hrange
      cases h
      have hlen1 : 1 ≤ len := Nat.one_le_iff_ne_zero.mpr hlen
      have hsplit : 8 * len = (8 * len - 1) + 1 := by omega
      have hpow : (2 : Int) ^ (8 * len) = 2 * (2 : Int) ^ (8 * len - 1) := by
        conv_lhs => rw [hsplit]
        rw [pow_succ]; ring
      have hpos : (0 : Int) < (2 : Int) ^ (8 * len) := by positivity
      have hmod0 : 0 ≤ v.emod ((2 : Int) ^ (8 * len)) := Int.emod_nonneg v (by omega)
      have hmodlt : v.emod ((2 : Int) ^ (8 * len)) < (2 : Int) ^ (8 * len) :=
        Int.emod_lt_of_pos v hpos
      set m := (v.emod ((2 : Int) ^ (8 * len))).toNat with hm
      have hmcast : (m : Int) = v.emod ((2 : Int) ^ (8 * len)) := Int.toNat_of_nonneg hmod0
      have hmlt : m < 256 ^ len := by
        have h2 : ((256 : Nat) ^ len : Int) = (2 : Int) ^ (8 * len) := by
          push_cast
          rw [show (256 : Int) = 2 ^ 8 by norm_num, ← pow_mul]
        exact_mod_cast (hmcast.trans_lt hmodlt).trans_eq h2.symm
      have hbn : bytesToNat (natToBytes m len) = m := bytesToNat_natToBytes hmlt
      refine ⟨natToBytes_length _ _, natToBytes_lt _ _, ?_, by rw [hbn, hmcast]⟩
      unfold intFromBytesSigned
      rw [natToBytes_length, hbn]
      have hPpos : (0 : Int) < (2 : Int) ^ (8 * len - 1) := by positivity
      by_cases hv : 0 ≤ v
      · have hveq : v.emod ((2 : Int) ^ (8 * len)) = v :=
          Int.emod_eq_of_lt hv (by omega)
        have hmv : (m : Int) = v := by rw [hmcast, hveq]
        have hcond : 2 * m < 2 ^ (8 * len) := by
          have : 2 * (m : Int) < (2 : Int) ^ (8 * len) := by
            rw [hmv, hpow]; omega
          have h2 : ((2 : Nat) ^ (8 * len) : Int) = (2 : Int) ^ (8 * len) := by push_cast; ring
          exact_mod_cast this.trans_eq h2.symm
        rw [if_pos hcond, hmv]
      · push_neg at hv
        have hveq : v.emod ((2 : Int) ^ (8 * len)) = v + (2 : Int) ^ (8 * len) := by
          have ha : (v + (2 : Int) ^ (8 * len)).emod ((2 : Int) ^ (8 * len)) =
              v.emod ((2 : Int) ^ (8 * len)) := by
            conv_lhs =>
              rw [show v + (2 : Int) ^ (8 * len) = v + (2 : Int) ^ (8 * len) * 1 by ring]
            exact Int.add_mul_emod_self_left v _ 1
          have hb : (v + (2 : Int) ^ (8 * len)).emod ((2 : Int) ^ (8 * len)) =
              v + (2 : Int) ^ (8 * len) := Int.emod_eq_of_lt (by omega) (by omega)
          omega
        have hmv : (m : Int) = v + (2 : Int) ^ (8 * len) := by rw [hmcast, hveq]
        have hcond : ¬ 2 * m < 2 ^ (8 * len) := by
          intro hc
          have h2 : ((2 : Nat) ^ (8 * len) : Int) = (2 : Int) ^ (8 * len) := by push_cast; ring
          have : 2 * (m : Int) < (2 : Int) ^ (8 * len) := by exact_mod_cast hc
          rw [hmv] at this
          omega
        rw [if_neg hcond, hmv]
        ring
    · cases h

theorem intToBytesSigned_some {v : Int} {len : Nat} (h1 : 1 ≤ len)
    (hlo : -(2 : Int) ^ (8 * len - 1) ≤ v) (hhi : v < (2 : Int) ^ (8 * len - 1)) :
    ∃ es, intToBytesSigned v len = some es := by
  unfold intToBytesSigned
  rw [if_neg (by omega), if_pos ⟨hlo, hhi⟩]
  exact ⟨_, rfl⟩

/-! ## Bit-packing arithmetic -/

theorem packStep_eq (acc w x : Nat) :
    (acc <<< w) ||| (x &&& ((1 <<< w) - 1)) = acc * 2 ^ w + x % 2 ^ w := by
  rw [Nat.one_shiftLeft, Nat.and_pow_two_sub_one_eq_mod, Nat.shiftLeft_eq,
    Nat.mul_comm acc, ← Nat.mul_add_lt_is_or (Nat.mod_lt _ (Nat.pos_pow_of_pos _ (by norm_num))),
    Nat.mul_comm]

theorem maskLow_eq (v w : Nat) : v &&& ((1 <<< w) - 1) = v % 2 ^ w := by
  rw [Nat.one_shiftLeft, Nat.and_pow_two_sub_one_eq_mod]

theorem shiftDown_eq (v w : Nat) : v >>> w = v / 2 ^ w :=
  Nat.shiftRight_eq_div_pow v w

/-! ## Record lookup lemmas -/

theorem rfind_cons_self (n : String) (v : Value) (r : Record) :
    rfind ((n, v) :: r) n = some v := by
  simp [rfind]

theorem rfind_cons_ne {m n : String} (h : m ≠ n) (v : Value) (r : Record) :
    rfind ((n, v) :: r) m = rfind r m := by
  simp [rfind, List.find?_cons, beq_iff_eq, h.symm]

theorem rfind_append_left {g : Record} {n : String} {v : Value} (t : Record)
    (h : rfind g n = some v) : rfind (g ++ t) n = some v := by
  induction g with
  | nil => simp [rfind] at h
  | cons p g ih =>
    by_cases hn : p.1 = n
    · obtain ⟨pn, pv⟩ := p
      subst hn
      rw [rfind_cons_self] at h
      simpa [List.cons_append, rfind_cons_self] using h
    · obtain ⟨pn, pv⟩ := p
      rw [rfind_cons_ne (by simpa using Ne.symm hn)] at h
      rw [List.cons_append, rfind_cons_ne (by simpa using Ne.symm hn)]
      exact ih h

theorem rfind_append_right {g : Record} {n : String}
    (h : n ∉ g.map Prod.fst) (t : Record) : rfind (g ++ t) n = rfind t n := by
  induction g with
  | nil => simp
  | cons p g ih =>
    simp only [List.map_cons, List.mem_cons] at h
    push_neg at h
    rw [List.cons_append, rfind_cons_ne h.1, ih h.2]

theorem rfind_mem_keys {r : Record} {n : String} {v : Value}
    (h : rfind r n = some v) : n ∈ r.map Prod.fst := by
  induction r with
  | nil => simp [rfind] at h
  | cons p r ih =>
    by_cases hn : p.1 = n
    · simp [hn]
    · obtain ⟨pn, pv⟩ := p
      rw [rfind_cons_ne (by simpa using Ne.symm hn)] at h
      simp [ih h]

theorem rfind_isSome_of_mem_keys {r : Record} {n : String}
    (h : n ∈ r.map Prod.fst) : ∃ v, rfind r n = some v := by
  induction r with
  | nil => simp at h
  | cons p r ih =>
    obtain ⟨pn, pv⟩ := p
    by_cases hn : n = pn
    · subst hn
      exact ⟨pv, rfind_cons_self _ _ _⟩
    · rw [rfind_cons_ne hn]
      refine ih ?_
      simpa [hn] using h

/-! ## Per-field serialization facts

`ValFacts st ft bits v` packages what the codec proofs need about one
well-typed field value: its byte form exists, has the right length and byte
range; under `st = true` (signed fields byte-aligned) its little-endian
value additionally fits in the declared `bits`, and `field.type.from_bytes`
decodes the byte form back to an equivalent value. -/

def ValFacts (st : Bool) (ft : FType) (bits : Nat) (v : Value) : Prop :=
  ∃ es, encValue ft v ((bits - 1) / 8 + 1) = some es ∧
    es.length = (bits - 1) / 8 + 1 ∧ (∀ b ∈ es, b < 256) ∧
    (st = true → bytesToNat es < 2 ^ bits ∧
      ∃ v', ftypeFromBytes ft es = .ok v' ∧ VEquiv ft v v')

/-- What one field of a schema contributes: positive width, and for named
fields a bound value satisfying `ValFacts`. -/
def FieldFacts (st : Bool) (r : Record) (f : BField) : Prop :=
  0 < f.bits ∧ ∀ n, f.name = some n → ∃ v, rfind r n = some v ∧ ValFacts st f.ftype f.bits v

/-- All fields of a schema contribute their facts. -/
def AllFF (st : Bool) (fs : Schema) (r : Record) : Prop := ∀ f ∈ fs, FieldFacts st r f

theorem numBytes_eq_of_dvd {bits : Nat} (hpos : 0 < bits) (h8 : bits % 8 = 0) :
    (bits - 1) / 8 + 1 = bits / 8 := by omega

theorem bits_le_numBytes (bits : Nat) : bits ≤ 8 * ((bits - 1) / 8 + 1) := by omega

theorem bytesToNat_replicate_zero (k : Nat) :
    bytesToNat (List.replicate k 0) = 0 := by
  induction k with
  | zero => rfl
  | succ k ih => simp [List.replicate, bytesToNat, ih]

/-- The byte form of any field under `FieldFacts` (reserved fields emit NUL
bytes carrying value 0; named fields defer to `ValFacts`). -/
theorem getValue_facts {st : Bool} {r : Record} {f : BField} (h : FieldFacts st r f) :
    ∃ es, getValue r f = some es ∧ es.length = (f.bits - 1) / 8 + 1 ∧
      (∀ b ∈ es, b < 256) ∧
      (st = true → bytesToNat es < 2 ^ f.bits) ∧
      (∀ n, f.name = some n → st = true →
        ∃ v v', rfind r n = some v ∧ ftypeFromBytes f.ftype es = .ok v' ∧
          VEquiv f.ftype v v') := by
  obtain ⟨hpos, hnamed⟩ := h
  cases hfn : f.name with
  | none =>
    refine ⟨List.replicate ((f.bits - 1) / 8 + 1) 0, ?_, by simp, by simp, ?_, ?_⟩
    · simp [getValue, hfn]
    · intro _
      rw [bytesToNat_replicate_zero]
      exact Nat.pos_pow_of_pos _ (by norm_num)
    · intro n hn
      simp at hn
  | some n =>
    obtain ⟨v, hv, es, henc, hlen, hlt, hst⟩ := hnamed n hfn
    refine ⟨es, ?_, hlen, hlt, fun h => (hst h).1, ?_⟩
    · simp [getValue, hfn, hv, henc]
    · intro m hm hstt
      cases hm
      obtain ⟨hbound, v', hdec, hequiv⟩ := hst hstt
      exact ⟨v, v', hv, hdec, hequiv⟩

theorem valFacts_vbytes {st : Bool} {bits : Nat} {bs : List Nat} (hpos : 0 < bits)
    (h8 : bits % 8 = 0) (hlen : bs.length = bits / 8) (hb : ∀ b ∈ bs, b < 256) :
    ValFacts st .bytes bits (.vbytes bs) := by
  have hnb : (bits - 1) / 8 + 1 = bits / 8 := numBytes_eq_of_dvd hpos h8
  have h8b : 8 * (bits / 8) = bits := by omega
  refine ⟨bs, ?_, by omega, hb, ?_⟩
  · simp [encValue, primToBytes, toBytesBytes, hnb, hlen]
  · intro _
    refine ⟨?_, .vbytes bs, rfl, VEquiv.prim _ _ rfl⟩
    calc bytesToNat bs < 256 ^ bs.length := bytesToNat_lt hb
      _ = 2 ^ bits := by rw [pow_256_eq_two_pow, hlen, h8b]

theorem valFacts_vuint {st : Bool} {bits : Nat} {n : Nat} (hpos : 0 < bits)
    (hlt : n < 2 ^ bits) :
    ValFacts st .uint bits (.vint n) := by
  have hble : bits ≤ 8 * ((bits - 1) / 8 + 1) := bits_le_numBytes bits
  have hlt8 : ((n : Int)) < (2 : Int) ^ (8 * ((bits - 1) / 8 + 1)) := by
    have h1 : (n : Int) < (2 : Int) ^ bits := by exact_mod_cast hlt
    exact h1.trans_le (pow_le_pow_right (by norm_num) hble)
  have henc : intToBytesUnsigned (n : Int) ((bits - 1) / 8 + 1) =
      some (natToBytes n ((bits - 1) / 8 + 1)) := by
    rw [intToBytesUnsigned_some (by positivity) hlt8]
    simp
  have hnlt : n < 256 ^ ((bits - 1) / 8 + 1) := by
    rw [pow_256_eq_two_pow]
    exact hlt.trans_le (Nat.pow_le_pow_right (by norm_num) hble)
  refine ⟨natToBytes n ((bits - 1) / 8 + 1), ?_, natToBytes_length _ _, natToBytes_lt _ _, ?_⟩
  · simpa [encValue, primToBytes] using henc
  · intro _
    refine ⟨by rw [bytesToNat_natToBytes hnlt]; exact hlt, .vint n, ?_, VEquiv.prim _ _ rfl⟩
    simp [ftypeFromBytes, bytesToNat_natToBytes hnlt]

theorem valFacts_vbool {st : Bool} {bits : Nat} {b : Bool} (hpos : 0 < bits) :
    ValFacts st .bool bits (.vbool b) := by
  set k : Nat := if b then 1 else 0 with hk
  have hk1 : k ≤ 1 := by cases b <;> simp [hk]
  have hlt8 : ((k : Int)) < (2 : Int) ^ (8 * ((bits - 1) / 8 + 1)) := by
    calc ((k : Int)) ≤ 1 := by exact_mod_cast hk1
      _ < (2 : Int) ^ (8 * ((bits - 1) / 8 + 1)) := by
          exact one_lt_pow (by norm_num) (by omega)
  have hnlt : k < 256 ^ ((bits - 1) / 8 + 1) := by
    calc k ≤ 1 := hk1
      _ < 256 ^ ((bits - 1) / 8 + 1) := one_lt_pow (by norm_num) (by omega)
  have henc : intToBytesUnsigned ((if b then 1 else 0 : Int)) ((bits - 1) / 8 + 1) =
      some (natToBytes k ((bits - 1) / 8 + 1)) := by
    have : ((if b then 1 else 0 : Int)) = (k : Int) := by cases b <;> simp [hk]
    rw [this, intToBytesUnsigned_some (by positivity) hlt8]
    simp
  refine ⟨natToBytes k ((bits - 1) / 8 + 1), ?_, natToBytes_length _ _, natToBytes_lt _ _, ?_⟩
  · simpa [encValue, primToBytes] using henc
  · intro _
    rw [bytesToNat_natToBytes hnlt]
    refine ⟨by calc k ≤ 1 := hk1
      _ < 2 ^ bits := one_lt_pow (by norm_num) (by omega), ?_⟩
    refine ⟨.vbool b, ?_, VEquiv.prim _ _ rfl⟩
    simp only [ftypeFromBytes]
    rw [bytesToNat_natToBytes hnlt]
    cases b <;> simp [hk]

theorem valFacts_vint {st : Bool} {bits : Nat} {i : Int} (hpos : 0 < bits)
    (hlo : -(2 : Int) ^ (bits - 1) ≤ i) (hhi : i < (2 : Int) ^ (bits - 1))
    (hal : st = true → bits % 8 = 0) :
    ValFacts st .int bits (.vint i) := by
  set nb := (bits - 1) / 8 + 1 with hnb
  have hble : bits ≤ 8 * nb := bits_le_numBytes bits
  have hmono : (2 : Int) ^ (bits - 1) ≤ (2 : Int) ^ (8 * nb - 1) :=
    pow_le_pow_right (by norm_num) (by omega)
  obtain ⟨es, hes⟩ :=
    @intToBytesSigned_some i nb (by omega)
      (le_trans (by omega) hlo) (hhi.trans_le hmono)
  obtain ⟨hlen, hblt, hdec, hval⟩ := intToBytesSigned_spec hes
  refine ⟨es, by simpa [encValue, primToBytes] using hes, hlen, hblt, ?_⟩
  intro hstt
  have h8 : bits % 8 = 0 := hal hstt
  have h8nb : 8 * nb = bits := by omega
  constructor
  · have hmodlt : i.emod ((2 : Int) ^ (8 * nb)) < (2 : Int) ^ (8 * nb) :=
      Int.emod_lt_of_pos i (by positivity)
    have h1 : (bytesToNat es : Int) < (2 : Int) ^ bits := by
      rw [hval, ← h8nb]
      exact hmodlt
    have h2 : ((2 : Nat) ^ bits : Int) = (2 : Int) ^ bits := by push_cast; ring
    exact_mod_cast h1.trans_eq h2.symm
  · exact ⟨.vint i, by simp [ftypeFromBytes, hdec], VEquiv.prim _ _ rfl⟩

theorem valFacts_vfloat {st : Bool} {bits : Nat} {bs : List Nat}
    (h48 : bits = 32 ∨ bits = 64) (hlen : bs.length = bits / 8)
    (hb : ∀ b ∈ bs, b < 256) :
    ValFacts st .float bits (.vfloat bs) := by
  have hnb : (bits - 1) / 8 + 1 = bits / 8 := by rcases h48 with rfl | rfl <;> norm_num
  have hnb48 : bits / 8 = 4 ∨ bits / 8 = 8 := by rcases h48 with rfl | rfl <;> norm_num
  refine ⟨bs, ?_, by omega, hb, ?_⟩
  · simp only [encValue, primToBytes, hnb]
    rw [if_pos ⟨by omega, by omega⟩]
  · intro _
    refine ⟨?_, .vfloat bs, ?_, VEquiv.prim _ _ rfl⟩
    · calc bytesToNat bs < 256 ^ bs.length := bytesToNat_lt hb
        _ = 2 ^ bits := by
            rw [pow_256_eq_two_pow, hlen]
            congr 1
            rcases h48 with rfl | rfl <;> norm_num
    · simp only [ftypeFromBytes]
      rw [if_pos (by omega)]

/-! ## Schema-level lemmas: shared helpers -/

theorem sumBits_cons (f : BField) (fs : Schema) :
    sumBits (f :: fs) = f.bits + sumBits fs := by simp [sumBits]

theorem fieldKeyList_cons_none {f : BField} {fs : Schema} (h : f.name = none) :
    fieldKeyList (f :: fs) = fieldKeyList fs := by
  simp [fieldKeyList, List.filterMap_cons, h]

theorem fieldKeyList_cons_some {f : BField} {fs : Schema} {n : String}
    (h : f.name = some n) :
    fieldKeyList (f :: fs) = n :: fieldKeyList fs := by
  simp [fieldKeyList, List.filterMap_cons, h]

theorem mem_fieldKeyList {f : BField} {fs : Schema} {n : String}
    (hf : f ∈ fs) (hn : f.name = some n) : n ∈ fieldKeyList fs :=
  List.mem_filterMap.mpr ⟨f, hf, hn⟩

theorem take_append_exact {α : Type} {xs : List α} (ys : List α) {k : Nat}
    (h : xs.length = k) : (xs ++ ys).take k = xs := by
  subst h
  simp

theorem drop_append_exact {α : Type} {xs : List α} (ys : List α) {k : Nat}
    (h : xs.length = k) : (xs ++ ys).drop k = ys := by
  subst h
  simp

/-- Pointwise decode agreement on the named fields of a schema: each named
field is bound in both records, to equivalent values. -/
def DecOut (fs : Schema) (r r' : Record) : Prop :=
  ∀ f ∈ fs, ∀ n, f.name = some n →
    ∃ v v', rfind r n = some v ∧ rfind r' n = some v' ∧ VEquiv f.ftype v v'

theorem decOut_requiv {fs : Schema} {r r' : Record} (h : DecOut fs r r') :
    REquiv fs r r' := by
  induction fs with
  | nil => exact .nil r r'
  | cons f rest ih =>
    have tail : DecOut rest r r' := fun g hg => h g (by simp [hg])
    cases hfn : f.name with
    | none => exact .consReserved f rest r r' hfn (ih tail)
    | some n =>
      obtain ⟨v, v', hv, hv', he⟩ := h f (by simp) n hfn
      exact .consNamed f rest r r' n v v' hfn hv hv' he (ih tail)

theorem decOut_cons_right {fs : Schema} {r r' : Record} {n : String} {v : Value}
    (hn : n ∉ fieldKeyList fs) (h : DecOut fs r r') : DecOut fs r ((n, v) :: r') := by
  intro f hf m hm
  obtain ⟨w, w', hw, hw', he⟩ := h f hf m hm
  have hmn : m ≠ n := fun he' => hn (he' ▸ mem_fieldKeyList hf hm)
  exact ⟨w, w', hw, by rw [rfind_cons_ne hmn]; exact hw', he⟩

theorem decOut_append_right {fs : Schema} {r r' : Record} {g : Record}
    (hdisj : ∀ k ∈ g.map Prod.fst, k ∉ fieldKeyList fs)
    (h : DecOut fs r r') : DecOut fs r (g ++ r') := by
  intro f hf m hm
  obtain ⟨w, w', hw, hw', he⟩ := h f hf m hm
  have hmg : m ∉ g.map Prod.fst := fun hmem => hdisj m hmem (mem_fieldKeyList hf hm)
  exact ⟨w, w', hw, by rw [rfind_append_right hmg]; exact hw', he⟩

theorem decOut_append_left {fs : Schema} {r r' : Record} (g : Record)
    (h : DecOut fs r r') : DecOut fs r (r' ++ g) := by
  intro f hf m hm
  obtain ⟨w, w', hw, hw', he⟩ := h f hf m hm
  exact ⟨w, w', hw, rfind_append_left g hw', he⟩

/-! ## The byte-aligned path -/

theorem toBytesSimpleGo_facts {st : Bool} {fs : Schema} {r : Record}
    (hff : AllFF st fs r) (hsimp : ∀ f ∈ fs, f.bits % 8 = 0) :
    ∃ bs, toBytesSimpleGo fs r = some bs ∧ 8 * bs.length = sumBits fs ∧
      ∀ b ∈ bs, b < 256 := by
  induction fs with
  | nil => exact ⟨[], rfl, by simp [sumBits], by simp⟩
  | cons f rest ih =>
    obtain ⟨es, hes, hlen, hblt, _, _⟩ := getValue_facts (hff f (by simp))
    obtain ⟨bs, hbs, hbl, hbb⟩ :=
      ih (fun g hg => hff g (by simp [hg])) (fun g hg => hsimp g (by simp [hg]))
    have h8 := hsimp f (by simp)
    have hpos := (hff f (by simp)).1
    refine ⟨es ++ bs, ?_, ?_, ?_⟩
    · simp [toBytesSimpleGo, hes, hbs]
    · rw [List.length_append, sumBits_cons]
      omega
    · intro b hb
      rcases List.mem_append.mp hb with hb | hb
      · exact hblt b hb
      · exact hbb b hb

theorem fromBytesSimpleGo_facts {fs : Schema} {r : Record}
    (hff : AllFF true fs r) (hsimp : ∀ f ∈ fs, f.bits % 8 = 0)
    (hnodup : (fieldKeyList fs).Nodup) :
    ∀ {bs : List Nat} (extra : List Nat), toBytesSimpleGo fs r = some bs →
    ∃ r', fromBytesSimpleGo fs (bs ++ extra) = .ok r' ∧
      r'.map Prod.fst = fieldKeyList fs ∧ DecOut fs r r' := by
  induction fs with
  | nil =>
    intro bs extra henc
    cases henc
    exact ⟨[], rfl, by simp [fieldKeyList], fun f hf => by simp at hf⟩
  | cons f rest ih =>
    intro bs extra henc
    obtain ⟨es, hes, hlen, hblt, _, hdecs⟩ := getValue_facts (hff f (by simp))
    have hffr : AllFF true rest r := fun g hg => hff g (by simp [hg])
    have hsr : ∀ g ∈ rest, g.bits % 8 = 0 := fun g hg => hsimp g (by simp [hg])
    have h8 := hsimp f (by simp)
    have hpos := (hff f (by simp)).1
    have hlen8 : es.length = f.bits / 8 := by omega
    simp only [toBytesSimpleGo, hes, Option.bind_eq_bind, Option.some_bind] at henc
    cases hbs' : toBytesSimpleGo rest r with
    | none => rw [hbs'] at henc; cases henc
    | some bs' =>
      rw [hbs'] at henc
      simp only [Option.some_bind, Option.some.injEq, pure] at henc
      subst henc
      have htake : ((es ++ bs') ++ extra).take (f.bits / 8) = es := by
        rw [List.append_assoc]
        exact take_append_exact _ hlen8
      have hdrop : ((es ++ bs') ++ extra).drop (f.bits / 8) = bs' ++ extra := by
        rw [List.append_assoc]
        exact drop_append_exact _ hlen8
      cases hfn : f.name with
      | none =>
        have hnod : (fieldKeyList rest).Nodup := by
          rwa [fieldKeyList_cons_none hfn] at hnodup
        obtain ⟨r', hr', hkeys, hdec⟩ := ih hffr hsr hnod extra hbs'
        refine ⟨r', ?_, ?_, ?_⟩
        · simp only [fromBytesSimpleGo, hfn, htake, hdrop]
          exact hr'
        · rw [hkeys, fieldKeyList_cons_none hfn]
        · intro g hg m hm
          rcases List.mem_cons.mp hg with rfl | hg
          · rw [hfn] at hm; cases hm
          · exact hdec g hg m hm
      | some n =>
        rw [fieldKeyList_cons_some hfn] at hnodup
        have hnod := List.nodup_cons.mp hnodup
        obtain ⟨r', hr', hkeys, hdec⟩ := ih hffr hsr hnod.2 extra hbs'
        obtain ⟨v, v', hv, hdv, hvv⟩ := hdecs n hfn rfl
        refine ⟨(n, v') :: r', ?_, ?_, ?_⟩
        · simp only [fromBytesSimpleGo, hfn, htake, hdrop, hdv, hr']
          rfl
        · rw [List.map_cons, hkeys, fieldKeyList_cons_some hfn]
        · intro g hg m hm
          rcases List.mem_cons.mp hg with rfl | hg
          · rw [hfn] at hm
            cases hm
            exact ⟨v, v', hv, rfind_cons_self _ _ _, hvv⟩
          · exact decOut_cons_right hnod.1 hdec g hg m hm

/-! ## The bit-packed path -/

theorem packFold_append (pack : List (List Nat × Nat)) (e : List Nat × Nat) :
    packFold (pack ++ [e]) =
      packFold pack * 2 ^ e.2 + bytesToNat (e.1.take ((e.2 - 1) / 8 + 1)) % 2 ^ e.2 := by
  unfold packFold
  rw [List.foldl_append]
  simp [packStep_eq]

theorem packFold_lt (pack : List (List Nat × Nat)) :
    packFold pack < 2 ^ (pack.map Prod.snd).sum := by
  induction pack using List.reverseRecOn with
  | nil => simp [packFold]
  | append_singleton pack e ih =>
    rw [packFold_append]
    simp only [List.map_append, List.sum_append, List.map_cons, List.map_nil,
      List.sum_cons, List.sum_nil, Nat.add_zero]
    have hm : bytesToNat (e.1.take ((e.2 - 1) / 8 + 1)) % 2 ^ e.2 < 2 ^ e.2 :=
      Nat.mod_lt _ (Nat.pos_pow_of_pos _ (by norm_num))
    calc packFold pack * 2 ^ e.2 + bytesToNat (e.1.take ((e.2 - 1) / 8 + 1)) % 2 ^ e.2
        < packFold pack * 2 ^ e.2 + 2 ^ e.2 := by omega
      _ = (packFold pack + 1) * 2 ^ e.2 := by ring
      _ ≤ 2 ^ (pack.map Prod.snd).sum * 2 ^ e.2 := Nat.mul_le_mul_right _ (by omega)
      _ = 2 ^ ((pack.map Prod.snd).sum + e.2) := (pow_add 2 _ _).symm

/-- Correspondence between the decoder's field accumulator and the encoder's
`(value bytes, bits)` accumulator for the current group. -/
def PackCorr (r : Record) : Schema → List (List Nat × Nat) → Prop :=
  List.Forall₂ (fun f vb => getValue r f = some vb.1 ∧ vb.2 = f.bits)

theorem packCorr_sumBits {r : Record} {pD : Schema} {pE : List (List Nat × Nat)}
    (h : PackCorr r pD pE) : (pE.map Prod.snd).sum = sumBits pD := by
  induction h with
  | nil => simp [sumBits]
  | cons hfe _ ih =>
    simp only [List.map_cons, List.sum_cons, sumBits_cons, ih, hfe.2]

theorem sumBits_append (l₁ l₂ : Schema) :
    sumBits (l₁ ++ l₂) = sumBits l₁ + sumBits l₂ := by
  simp [sumBits]

theorem fieldKeyList_append (l₁ l₂ : Schema) :
    fieldKeyList (l₁ ++ l₂) = fieldKeyList l₁ ++ fieldKeyList l₂ := by
  simp [fieldKeyList]

theorem fieldKeyList_reverse (fs : Schema) :
    fieldKeyList fs.reverse = (fieldKeyList fs).reverse := by
  simp [fieldKeyList]

theorem decOut_of_reverse {fs : Schema} {r r' : Record}
    (h : DecOut fs.reverse r r') : DecOut fs r r' := by
  intro f hf n hn
  exact h f (by simpa using hf) n hn

/-- Decoding one closed group (`for pack_field in reversed(pack)`) recovers
every named field of the group. -/
theorem decodeGroup_facts {r : Record} :
    ∀ (pdRev : Schema) (peRev : List (List Nat × Nat)),
      List.Forall₂ (fun f vb => getValue r f = some vb.1 ∧ vb.2 = f.bits) pdRev peRev →
      (∀ f ∈ pdRev, FieldFacts true r f) →
      (fieldKeyList pdRev).Nodup →
      ∃ gr, decodeGroup pdRev (packFold peRev.reverse) = .ok gr ∧
        gr.map Prod.fst = fieldKeyList pdRev ∧ DecOut pdRev r gr := by
  intro pdRev peRev hcorr
  induction hcorr with
  | nil =>
    intro _ _
    exact ⟨[], rfl, by simp [fieldKeyList], fun f hf => by simp at hf⟩
  | @cons f e pdr' per' hfe hrest ih =>
    intro hff hnodup
    obtain ⟨es, hes, hlen, hblt, hbound, hdecs⟩ := getValue_facts (hff f (by simp))
    have hfes : e.1 = es := by
      have := hfe.1.symm.trans hes
      exact Option.some.inj this
    have hW : 0 < 2 ^ f.bits := Nat.pos_pow_of_pos _ (by norm_num)
    have hmlt : bytesToNat es < 2 ^ f.bits := hbound rfl
    have htk : e.1.take ((e.2 - 1) / 8 + 1) = es := by
      rw [hfes, hfe.2, ← hlen, List.take_length]
    have hV : packFold ((e :: per').reverse) =
        packFold per'.reverse * 2 ^ f.bits + bytesToNat es := by
      rw [List.reverse_cons, packFold_append, htk, hfe.2, Nat.mod_eq_of_lt hmlt]
    have hVshift : packFold ((e :: per').reverse) >>> f.bits = packFold per'.reverse := by
      rw [hV, shiftDown_eq, Nat.mul_comm, Nat.mul_add_div hW, Nat.div_eq_of_lt hmlt,
        Nat.add_zero]
    have hVmask : packFold ((e :: per').reverse) &&& ((1 <<< f.bits) - 1) =
        bytesToNat es := by
      rw [hV, maskLow_eq, Nat.mul_comm, Nat.mul_add_mod, Nat.mod_eq_of_lt hmlt]
    have hffr : ∀ g ∈ pdr', FieldFacts true r g := fun g hg => hff g (by simp [hg])
    cases hfn : f.name with
    | none =>
      have hnod : (fieldKeyList pdr').Nodup := by
        rwa [fieldKeyList_cons_none hfn] at hnodup
      obtain ⟨gr, hgr, hkeys, hdec⟩ := ih hffr hnod
      refine ⟨gr, ?_, by rw [hkeys, fieldKeyList_cons_none hfn], ?_⟩
      · simp only [decodeGroup, hfn, hVshift]
        exact hgr
      · intro g hg m hm
        rcases List.mem_cons.mp hg with rfl | hg
        · rw [hfn] at hm; cases hm
        · exact hdec g hg m hm
    | some n =>
      rw [fieldKeyList_cons_some hfn] at hnodup
      have hnod := List.nodup_cons.mp hnodup
      obtain ⟨gr, hgr, hkeys, hdec⟩ := ih hffr hnod.2
      obtain ⟨v, v', hv, hdv, hvv⟩ := hdecs n hfn rfl
      have hnb : natToBytes (bytesToNat es) ((f.bits - 1) / 8 + 1) = es := by
        rw [← hlen]
        exact natToBytes_bytesToNat hblt
      refine ⟨(n, v') :: gr, ?_, ?_, ?_⟩
      · simp only [decodeGroup, hfn, hVmask, hVshift, hnb, hdv, hgr]
        rfl
      · rw [List.map_cons, hkeys, fieldKeyList_cons_some hfn]
      · intro g hg m hm
        rcases List.mem_cons.mp hg with rfl | hg
        · rw [hfn] at hm
          cases hm
          exact ⟨v, v', hv, rfind_cons_self _ _ _, hvv⟩
        · exact decOut_cons_right hnod.1 hdec g hg m hm

theorem toBytesFullGo_facts {st : Bool} {fs : Schema} {r : Record}
    (hff : AllFF st fs r) :
    ∀ (pb : Nat) (pack : List (List Nat × Nat)), (pb = 0 ∨ pb % 8 ≠ 0) →
      (pb + sumBits fs) % 8 = 0 →
      ∃ bs, toBytesFullGo fs r pb pack = some bs ∧ 8 * bs.length = pb + sumBits fs ∧
        ∀ b ∈ bs, b < 256 := by
  induction fs with
  | nil =>
    intro pb pack hinv hmod
    simp only [sumBits, List.map_nil, List.sum_nil, Nat.add_zero] at hmod ⊢
    have hpb : pb = 0 := by omega
    exact ⟨[], rfl, by simp [hpb], by simp⟩
  | cons f rest ih =>
    intro pb pack hinv hmod
    obtain ⟨es, hes, hlen, hblt, _, _⟩ := getValue_facts (hff f (by simp))
    have hffr : AllFF st rest r := fun g hg => hff g (by simp [hg])
    rw [sumBits_cons] at hmod
    by_cases hclose : (pb + f.bits) % 8 = 0
    · obtain ⟨bs', hbs', hbl', hbb'⟩ := ih hffr 0 [] (Or.inl rfl) (by omega)
      refine ⟨natToBytes (packFold (pack ++ [(es, f.bits)])) ((pb + f.bits) / 8) ++ bs',
        ?_, ?_, ?_⟩
      · simp only [toBytesFullGo, hes, Option.some_bind, hclose, beq_self_eq_true, if_true,
          hbs', Option.bind_eq_bind, Option.some_bind]
        rfl
      · rw [List.length_append, natToBytes_length, sumBits_cons]
        omega
      · intro b hb
        rcases List.mem_append.mp hb with hb | hb
        · exact natToBytes_lt _ _ b hb
        · exact hbb' b hb
    · obtain ⟨bs, hbs, hbl, hbb⟩ :=
        ih hffr (pb + f.bits) (pack ++ [(es, f.bits)]) (Or.inr hclose) (by omega)
      refine ⟨bs, ?_, by rw [sumBits_cons]; omega, hbb⟩
      simp only [toBytesFullGo, hes, Option.bind_eq_bind, Option.some_bind,
        beq_iff_eq, if_neg hclose]
      exact hbs

theorem mem_fieldKeyList_cons {k : String} {f : BField} {fs : Schema} :
    k ∈ fieldKeyList (f :: fs) ↔ k ∈ fieldKeyList [f] ∨ k ∈ fieldKeyList fs := by
  cases hfn : f.name with
  | none => simp [fieldKeyList, List.filterMap_cons, hfn]
  | some n => simp [fieldKeyList, List.filterMap_cons, hfn]

theorem fullGo_roundtrip {r : Record} :
    ∀ (fs : Schema) (pb : Nat) (pD : Schema) (pE : List (List Nat × Nat))
      (bs extra : List Nat),
      AllFF true fs r →
      (∀ f ∈ pD, FieldFacts true r f) →
      PackCorr r pD pE →
      pb = sumBits pD →
      (pD = [] ∧ pb = 0 ∨ pb % 8 ≠ 0) →
      (pb + sumBits fs) % 8 = 0 →
      (fieldKeyList (pD ++ fs)).Nodup →
      toBytesFullGo fs r pb pE = some bs →
      ∃ r', fromBytesFullGo fs (bs ++ extra) pb pD = .ok r' ∧
        (∀ k, k ∈ r'.map Prod.fst ↔ k ∈ fieldKeyList (pD ++ fs)) ∧
        DecOut (pD ++ fs) r r' := by
  intro fs
  induction fs with
  | nil =>
    intro pb pD pE bs extra hff hffD hcorr hpb hinv hmod hnodup henc
    cases henc
    have hpd : pD = [] ∧ pb = 0 := by
      rcases hinv with h | h
      · exact h
      · exfalso
        apply h
        simpa [sumBits] using hmod
    obtain ⟨rfl, rfl⟩ := hpd
    exact ⟨[], rfl, by simp [fieldKeyList], fun f hf => by simp at hf⟩
  | cons f rest ih =>
    intro pb pD pE bs extra hff hffD hcorr hpb hinv hmod hnodup henc
    obtain ⟨es, hes, hlen, hblt, _, _⟩ := getValue_facts (hff f (by simp))
    have hffr : AllFF true rest r := fun g hg => hff g (by simp [hg])
    have hffD' : ∀ g ∈ pD ++ [f], FieldFacts true r g := by
      intro g hg
      rcases List.mem_append.mp hg with hg | hg
      · exact hffD g hg
      · rw [List.mem_singleton.mp hg]
        exact hff f (by simp)
    have hcorr' : PackCorr r (pD ++ [f]) (pE ++ [(es, f.bits)]) :=
      List.rel_append hcorr (List.Forall₂.cons ⟨hes, rfl⟩ List.Forall₂.nil)
    have hpb' : pb + f.bits = sumBits (pD ++ [f]) := by
      rw [sumBits_append, ← hpb]
      simp [sumBits]
    have hassoc : (pD ++ [f]) ++ rest = pD ++ f :: rest := by
      rw [List.append_assoc]
      rfl
    rw [sumBits_cons] at hmod
    by_cases hclose : (pb + f.bits) % 8 = 0
    · -- the group closes at this field
      have hcb : ((pb + f.bits) % 8 == 0) = true := by simpa using hclose
      simp only [toBytesFullGo, hes, Option.bind_eq_bind, Option.some_bind, hcb,
        if_true] at henc
      cases hbs' : toBytesFullGo rest r 0 [] with
      | none =>
        rw [hbs'] at henc
        cases henc
      | some bs' =>
        rw [hbs'] at henc
        simp only [Option.bind_eq_bind, Option.some_bind, Option.pure_def,
          Option.some.injEq] at henc
        subst henc
        have hsum' : ((pE ++ [(es, f.bits)]).map Prod.snd).sum = pb + f.bits := by
          rw [packCorr_sumBits hcorr', hpb']
        have hpflt : packFold (pE ++ [(es, f.bits)]) < 2 ^ (pb + f.bits) := by
          have h := packFold_lt (pE ++ [(es, f.bits)])
          rwa [hsum'] at h
        have h256 : packFold (pE ++ [(es, f.bits)]) < 256 ^ ((pb + f.bits) / 8) := by
          rw [pow_256_eq_two_pow, show 8 * ((pb + f.bits) / 8) = pb + f.bits by omega]
          exact hpflt
        have hglen : (natToBytes (packFold (pE ++ [(es, f.bits)])) ((pb + f.bits) / 8)).length
            = (pb + f.bits) / 8 := natToBytes_length _ _
        have htake : ((natToBytes (packFold (pE ++ [(es, f.bits)])) ((pb + f.bits) / 8) ++ bs')
            ++ extra).take ((pb + f.bits) / 8)
            = natToBytes (packFold (pE ++ [(es, f.bits)])) ((pb + f.bits) / 8) := by
          rw [List.append_assoc]
          exact take_append_exact _ hglen
        have hdropg : ((natToBytes (packFold (pE ++ [(es, f.bits)])) ((pb + f.bits) / 8) ++ bs')
            ++ extra).drop ((pb + f.bits) / 8) = bs' ++ extra := by
          rw [List.append_assoc]
          exact drop_append_exact _ hglen
        have hval : bytesToNat (natToBytes (packFold (pE ++ [(es, f.bits)]))
            ((pb + f.bits) / 8)) = packFold (pE ++ [(es, f.bits)]) :=
          bytesToNat_natToBytes h256
        have hsubg : (pD ++ [f]).Sublist (pD ++ f :: rest) :=
          List.Sublist.append_left ((List.nil_sublist rest).cons₂ f) pD
        have hnodg : (fieldKeyList (pD ++ [f])).Nodup :=
          hnodup.sublist (List.Sublist.filterMap _ hsubg)
        have hsubrest : rest.Sublist (pD ++ f :: rest) := by
          refine List.sublist_append_of_sublist_right ?_
          exact (List.Sublist.refl rest).cons f
        have hnodrest : (fieldKeyList rest).Nodup :=
          hnodup.sublist (List.Sublist.filterMap _ hsubrest)
        obtain ⟨gr, hgr, hgkeys, hgdec⟩ :=
          decodeGroup_facts ((pD ++ [f]).reverse) ((pE ++ [(es, f.bits)]).reverse)
            (by rw [List.forall₂_reverse_iff]; exact hcorr')
            (fun g hg => hffD' g (List.mem_reverse.mp hg))
            (by rw [fieldKeyList_reverse]; exact List.nodup_reverse.mpr hnodg)
        rw [List.reverse_reverse] at hgr
        rw [fieldKeyList_reverse] at hgkeys
        have hgdec' : DecOut (pD ++ [f]) r gr := decOut_of_reverse hgdec
        obtain ⟨r'', hr'', hkeys'', hdec''⟩ :=
          ih 0 [] [] bs' extra hffr (fun g hg => by simp at hg) List.Forall₂.nil
            (by simp [sumBits]) (Or.inl ⟨rfl, rfl⟩) (by omega)
            (by simpa [fieldKeyList] using hnodrest) hbs'
        simp only [List.nil_append] at hkeys'' hdec''
        refine ⟨gr ++ r'', ?_, ?_, ?_⟩
        · simp only [fromBytesFullGo, hcb, if_true, htake, hdropg, hval, hgr, hr'']
          rfl
        · intro k
          rw [List.map_append, List.mem_append, hgkeys, List.mem_reverse, hkeys'' k,
            ← hassoc]
          simp only [fieldKeyList_append, List.mem_append, or_assoc]
        · rw [← hassoc]
          intro g hg m hm
          rcases List.mem_append.mp hg with hg | hg
          · exact decOut_append_left r'' hgdec' g hg m hm
          · refine decOut_append_right ?_ hdec'' g hg m hm
            intro k hk hkrest
            rw [hgkeys, List.mem_reverse] at hk
            have hnod2 : (fieldKeyList (pD ++ [f]) ++ fieldKeyList rest).Nodup := by
              rw [← fieldKeyList_append, hassoc]
              exact hnodup
            exact (List.disjoint_of_nodup_append hnod2) hk hkrest
    · -- the group stays open
      have hcb : ((pb + f.bits) % 8 == 0) = false := by
        simpa using hclose
      simp only [toBytesFullGo, hes, Option.bind_eq_bind, Option.some_bind, hcb,
        Bool.false_eq_true, if_false] at henc
      have hnodup' : (fieldKeyList ((pD ++ [f]) ++ rest)).Nodup := by
        rwa [hassoc]
      obtain ⟨r', hr', hkeys, hdec⟩ :=
        ih (pb + f.bits) (pD ++ [f]) (pE ++ [(es, f.bits)]) bs extra hffr hffD' hcorr'
          hpb' (Or.inr hclose) (by omega) hnodup' henc
      refine ⟨r', ?_, ?_, ?_⟩
      · simp only [fromBytesFullGo, hcb, Bool.false_eq_true, if_false]
        exact hr'
      · intro k
        rw [hkeys k, hassoc]
      · rw [← hassoc]
        exact hdec

/-! ## Whole-schema codec theorems -/

theorem isSimple_bits {fs : Schema} (h : isSimple fs = true) :
    ∀ f ∈ fs, f.bits % 8 = 0 := by
  intro f hf
  have := List.all_eq_true.mp h f hf
  simpa using this

theorem sameKeys_of_iff {xs ys : List String} (h : ∀ k, k ∈ xs ↔ k ∈ ys) :
    sameKeys xs ys = true := by
  unfold sameKeys
  rw [Bool.and_eq_true, List.all_eq_true, List.all_eq_true]
  exact ⟨fun x hx => List.elem_eq_true_of_mem ((h x).mp hx),
    fun y hy => List.elem_eq_true_of_mem ((h y).mpr hy)⟩

/-- Embeds `Bitfield.to_bytes` on a schema whose widths sum to a byte multiple and a
well-behaved record: serialization succeeds, with exactly `total_bytes` bytes
of output. -/
theorem toBytes_facts {st : Bool} {fs : Schema} {r : Record} (hff : AllFF st fs r)
    (hsum : sumBits fs % 8 = 0) :
    ∃ bs, toBytes fs r = some bs ∧ bs.length = totalBytes fs ∧
      8 * bs.length = sumBits fs ∧ ∀ b ∈ bs, b < 256 := by
  unfold toBytes
  by_cases hs : isSimple fs = true
  · rw [if_pos hs]
    obtain ⟨bs, hbs, hl, hb⟩ := toBytesSimpleGo_facts hff (isSimple_bits hs)
    exact ⟨bs, hbs, by unfold totalBytes; omega, hl, hb⟩
  · rw [if_neg hs]
    obtain ⟨bs, hbs, hl, hb⟩ := toBytesFullGo_facts hff 0 [] (Or.inl rfl) (by simpa)
    exact ⟨bs, hbs, by unfold totalBytes; omega, by omega, hb⟩

/-- Embeds `Bitfield.from_bytes` inverts `Bitfield.to_bytes` up to `REquiv` (and the
decode succeeds, including the constructor's key-set check), on any input
that starts with the serialized bytes. -/
theorem codec_roundtrip_facts {fs : Schema} {r : Record} {bs : List Nat}
    (hff : AllFF true fs r) (hsum : sumBits fs % 8 = 0)
    (hnodup : (fieldKeyList fs).Nodup) (henc : toBytes fs r = some bs)
    (extra : List Nat) :
    ∃ r', fromBytes fs (bs ++ extra) = .ok r' ∧ REquiv fs r r' := by
  obtain ⟨bs₀, henc₀, hlen₀, hlen8, hb₀⟩ := toBytes_facts hff hsum
  have hbseq : bs₀ = bs := by
    rw [henc] at henc₀
    exact (Option.some.inj henc₀).symm
  subst hbseq
  unfold fromBytes
  have hnotlt : ¬ (bs₀ ++ extra).length < totalBytes fs := by
    rw [List.length_append]
    omega
  rw [if_neg hnotlt]
  unfold toBytes at henc
  by_cases hs : isSimple fs = true
  · rw [if_pos hs] at henc ⊢
    obtain ⟨r', hr', hkeys, hdec⟩ :=
      fromBytesSimpleGo_facts hff (isSimple_bits hs) hnodup extra henc
    refine ⟨r', ?_, decOut_requiv hdec⟩
    rw [hr']
    have hsk : sameKeys (List.map Prod.fst r') (fieldKeyList fs) = true := by
      rw [hkeys]
      exact sameKeys_of_iff (fun k => Iff.rfl)
    show (if sameKeys (List.map Prod.fst r') (fieldKeyList fs) = true then pure r'
      else Except.error "unexpected keys") = Except.ok r'
    rw [if_pos hsk]
    rfl
  · rw [if_neg hs] at henc ⊢
    obtain ⟨r', hr', hkeys, hdec⟩ :=
      fullGo_roundtrip fs 0 [] [] bs₀ extra hff (fun g hg => by simp at hg)
        List.Forall₂.nil (by simp [sumBits]) (Or.inl ⟨rfl, rfl⟩) (by simpa)
        (by simpa [fieldKeyList] using hnodup) henc
    simp only [List.nil_append] at hkeys hdec
    refine ⟨r', ?_, decOut_requiv hdec⟩
    rw [hr']
    have hsk : sameKeys (List.map Prod.fst r') (fieldKeyList fs) = true :=
      sameKeys_of_iff hkeys
    show (if sameKeys (List.map Prod.fst r') (fieldKeyList fs) = true then pure r'
      else Except.error "unexpected keys") = Except.ok r'
    rw [if_pos hsk]
    rfl

/-! ## From well-typedness to codec facts (mutual induction) -/

theorem valFacts_vrec {st : Bool} {sub : Schema} {r : Record}
    (hsum : sumBits sub % 8 = 0) (hnodup : (fieldKeyList sub).Nodup)
    (hff : AllFF st sub r) (hpos : 0 < 8 * totalBytes sub) :
    ValFacts st (mkNested sub) (8 * totalBytes sub) (.vrec r) := by
  obtain ⟨bs, hbs, hlen, hlen8, hblt⟩ := toBytes_facts hff hsum
  have htb : 0 < totalBytes sub := by omega
  have hnb : (8 * totalBytes sub - 1) / 8 + 1 = totalBytes sub := by omega
  refine ⟨bs, ?_, by omega, hblt, ?_⟩
  · simp only [encValue, mkNested, hnb]
    exact hbs
  · intro hstt
    subst hstt
    constructor
    · calc bytesToNat bs < 256 ^ bs.length := bytesToNat_lt hblt
        _ = 2 ^ (8 * totalBytes sub) := by rw [pow_256_eq_two_pow, hlen]
    · obtain ⟨r', hr', hequiv⟩ := codec_roundtrip_facts hff hsum hnodup hbs []
      rw [List.append_nil] at hr'
      refine ⟨.vrec r', ?_, VEquiv.nested sub r r' hequiv⟩
      simp only [ftypeFromBytes, mkNested, hr', Except.map]

theorem allFF_nil {st : Bool} {r : Record} : AllFF st ([] : Schema) r :=
  fun f hf => absurd hf (List.not_mem_nil f)

theorem allFF_consReserved {st : Bool} {f : BField} {fs : Schema} {r : Record}
    (hname : f.name = none) (hpos : 0 < f.bits) (ih : AllFF st fs r) :
    AllFF st (f :: fs) r := by
  intro g hg
  rcases List.mem_cons.mp hg with rfl | hg
  · refine ⟨hpos, fun n hn => ?_⟩
    rw [hname] at hn
    cases hn
  · exact ih g hg

theorem allFF_consNamed {st : Bool} {f : BField} {fs : Schema} {r : Record}
    {n : String} {v : Value} (hname : f.name = some n) (hpos : 0 < f.bits)
    (hfind : rfind r n = some v) (ihv : 0 < f.bits → ValFacts st f.ftype f.bits v)
    (ihr : AllFF st fs r) : AllFF st (f :: fs) r := by
  intro g hg
  rcases List.mem_cons.mp hg with rfl | hg
  · refine ⟨hpos, fun m hm => ?_⟩
    rw [hname] at hm
    cases hm
    exact ⟨v, hfind, ihv hpos⟩
  · exact ihr g hg

/-- A well-typed value (in a field of positive width) satisfies all the
codec facts. -/
theorem wtValue_valFacts {st : Bool} {ft : FType} {bits : Nat} {v : Value}
    (h : WTValue st ft bits v) (hpos : 0 < bits) : ValFacts st ft bits v := by
  refine @WTValue.rec st
    (fun ft bits v _ => 0 < bits → ValFacts st ft bits v)
    (fun fs r _ => AllFF st fs r)
    ?_ ?_ ?_ ?_ ?_ ?_ ?_ ?_ ?_ ft bits v h hpos
  · exact fun bits bs h8 hlen hblt hpos => valFacts_vbytes hpos h8 hlen hblt
  · exact fun bits i hlo hhi hal hpos => valFacts_vint hpos hlo hhi hal
  · exact fun bits n hlt hpos => valFacts_vuint hpos hlt
  · exact fun bits b hpos => valFacts_vbool hpos
  · exact fun bits bs h48 hlen hblt _ => valFacts_vfloat h48 hlen hblt
  · exact fun sub r _ hsum hnodup ih hpos => valFacts_vrec hsum hnodup ih hpos
  · exact fun r => allFF_nil
  · exact fun f fs r hname hpos _ ih => allFF_consReserved hname hpos ih
  · exact fun f fs r n v hname hpos hfind _ _ ihv ihr =>
      allFF_consNamed hname hpos hfind ihv ihr

/-- A well-typed record supplies codec facts for every field of its schema. -/
theorem wtRecord_allFF {st : Bool} {fs : Schema} {r : Record}
    (h : WTRecord st fs r) : AllFF st fs r := by
  refine @WTRecord.rec st
    (fun ft bits v _ => 0 < bits → ValFacts st ft bits v)
    (fun fs r _ => AllFF st fs r)
    ?_ ?_ ?_ ?_ ?_ ?_ ?_ ?_ ?_ fs r h
  · exact fun bits bs h8 hlen hblt hpos => valFacts_vbytes hpos h8 hlen hblt
  · exact fun bits i hlo hhi hal hpos => valFacts_vint hpos hlo hhi hal
  · exact fun bits n hlt hpos => valFacts_vuint hpos hlt
  · exact fun bits b hpos => valFacts_vbool hpos
  · exact fun bits bs h48 hlen hblt _ => valFacts_vfloat h48 hlen hblt
  · exact fun sub r _ hsum hnodup ih hpos => valFacts_vrec hsum hnodup ih hpos
  · exact fun r => allFF_nil
  · exact fun f fs r hname hpos _ ih => allFF_consReserved hname hpos ih
  · exact fun f fs r n v hname hpos hfind _ _ ihv ihr =>
      allFF_consNamed hname hpos hfind ihv ihr

/-! ## Header parsing is total on 36-byte inputs -/

theorem exceptOkBind {α β : Type} (a : α) (f : α → Except String β) :
    (Except.ok a >>= f) = f a := rfl

theorem exceptPureEq {α : Type} (a : α) : (pure a : Except String α) = Except.ok a := rfl

/-- Embeds `ProtocolHeader.from_bytes` on any input of at least 12 bytes: both
reserved slices are consumed, and `type` is the little-endian value of bytes
8–9. -/
theorem protocolHeader_decode (bs : List Nat) (h : 12 ≤ bs.length) :
    fromBytes protocolHeaderFields bs =
      .ok [("type", .vint (bytesToNat ((bs.drop 8).take 2)))] := by
  unfold fromBytes
  rw [if_neg (by simp [protocolHeaderFields, totalBytes, sumBits]; omega)]
  simp [protocolHeaderFields, isSimple, fromBytesSimpleGo, ftypeFromBytes, sameKeys,
    fieldKeyList, List.drop_drop, exceptOkBind, exceptPureEq]

/-- Embeds `Frame.from_bytes` (bit-packed path) succeeds on any 8-byte input. -/
theorem frame_decode (bs : List Nat) (h : 8 ≤ bs.length) :
    ∃ rf, fromBytes frameFields bs = .ok rf := by
  unfold fromBytes
  rw [if_neg (by simp [frameFields, totalBytes, sumBits]; omega)]
  simp [frameFields, isSimple, fromBytesFullGo, decodeGroup, ftypeFromBytes, sameKeys,
    fieldKeyList, exceptOkBind, exceptPureEq]

/-- Embeds `FrameAddress.from_bytes` (bit-packed path) succeeds on any 16-byte
input. -/
theorem frameAddress_decode (bs : List Nat) (h : 16 ≤ bs.length) :
    ∃ ra, fromBytes frameAddressFields bs = .ok ra := by
  unfold fromBytes
  rw [if_neg (by simp [frameAddressFields, totalBytes, sumBits]; omega)]
  simp [frameAddressFields, isSimple, fromBytesFullGo, decodeGroup, ftypeFromBytes,
    sameKeys, fieldKeyList, exceptOkBind, exceptPureEq]

/-- Embeds `Header.from_bytes` on any input of at least 36 bytes: the three nested
sub-records all parse, and the protocol header's `type` field is the
little-endian value of bytes 32–33 of the datagram. -/
theorem header_decode (data : List Nat) (h : 36 ≤ data.length) :
    ∃ rf ra, fromBytes headerFields data =
      .ok [("frame", .vrec rf), ("frame_address", .vrec ra),
           ("protocol_header", .vrec [("type", .vint (bytesToNat ((data.drop 32).take 2)))])] := by
  have hf8 : (data.take 8).length = 8 := by simp; omega
  have hfa : ((data.drop 8).take 16).length = 16 := by simp; omega
  have hph : (((data.drop 8).drop 16).take 12).length = 12 := by simp; omega
  obtain ⟨rf, hrf⟩ := frame_decode (data.take 8) (by omega)
  obtain ⟨ra, hra⟩ := frameAddress_decode ((data.drop 8).take 16) (by omega)
  have hphd := protocolHeader_decode (((data.drop 8).drop 16).take 12) (by omega)
  have hslice : ((((data.drop 8).drop 16).take 12).drop 8).take 2 = (data.drop 32).take 2 := by
    rw [List.drop_drop, List.drop_take, List.take_take]
    norm_num
  rw [hslice] at hphd
  refine ⟨rf, ra, ?_⟩
  unfold fromBytes
  rw [if_neg (by
    simp [headerFields, totalBytes, sumBits, frameFields, frameAddressFields,
      protocolHeaderFields, mkNested]
    omega)]
  simp only [headerFields, isSimple, totalBytes, sumBits, frameFields,
    frameAddressFields, protocolHeaderFields, mkNested]
  norm_num
  simp only [fromBytesSimpleGo, ftypeFromBytes]
  rw [show (64 / 8 : Nat) = 8 by norm_num, show (128 / 8 : Nat) = 16 by norm_num,
    show (96 / 8 : Nat) = 12 by norm_num]
  simp only [frameFields] at hrf
  simp only [frameAddressFields] at hra
  simp only [protocolHeaderFields] at hphd
  rw [hrf, hra, hphd]
  simp [sameKeys, fieldKeyList, exceptOkBind, exceptPureEq, Except.map]

/-! ## Claims about header parsing and datagram classification -/

/-- C10: for every byte string of length at least 36, `Header.from_bytes`
succeeds and returns a record value — no error branch is reachable, because
every header field decodes through the total `bytes`/`uint`/`bool` decoders;
parsing fails (with `ValueError("missing data")`) exactly on inputs shorter
than 36 bytes. -/
theorem c10_header_parse_total (data : List Nat) :
    (36 ≤ data.length → ∃ r, fromBytes headerFields data = .ok r) ∧
    (data.length < 36 → fromBytes headerFields data = .error "missing data") := by
  constructor
  · intro h
    obtain ⟨rf, ra, hd⟩ := header_decode data h
    exact ⟨_, hd⟩
  · intro h
    have htb : totalBytes headerFields = 36 := by decide
    unfold fromBytes
    rw [if_pos (by omega)]

theorem c10_header_parse_total_witness :
    (∃ r, fromBytes headerFields (List.replicate 36 0) = .ok r) ∧
    fromBytes headerFields (List.replicate 35 0) = .error "missing data" :=
  ⟨(c10_header_parse_total (List.replicate 36 0)).1 (by decide),
   (c10_header_parse_total (List.replicate 35 0)).2 (by decide)⟩

/-- C7 as stated is false: a datagram too short to parse the 36-byte header
makes `Header.from_bytes` raise `ValueError("missing data")` from inside
`LifxProtocol._parse_response` (and hence from `datagram_received`, which
has no handler), rather than being dropped without raising. -/
theorem c7_counterexample :
    parseResponse (List.replicate 35 0) = .error "missing data" := by
  rfl

/-- C7 (amended): for every received datagram of at least 36 bytes whose
header type code maps to no known message type, `_parse_response` returns
`None` — the datagram is dropped internally without raising; datagrams
shorter than 36 bytes instead raise `ValueError` out of the receive
callback. -/
theorem c7_unknown_type_dropped (data : List Nat) (hlen : 36 ≤ data.length)
    (hunk : bytesToNat ((data.drop 32).take 2) ∉ messageTypeCodes) :
    parseResponse data = .ok none := by
  obtain ⟨rf, ra, hdec⟩ := header_decode data hlen
  unfold parseResponse
  rw [hdec]
  unfold payloadType
  simp [rfind, hunk]

theorem c7_unknown_type_dropped_witness :
    36 ≤ (List.replicate 36 0).length ∧ parseResponse (List.replicate 36 0) = .ok none :=
  ⟨by decide, c7_unknown_type_dropped (List.replicate 36 0) (by decide) (by decide)⟩

/-! ## Concrete schemas and records for the codec claims -/

/-- The `ReservedSimpleBitfield` schema of `tests.py`:
`reserved(16), foo(16 bytes), reserved(8), bar(16 bytes)`. -/
def reservedSimpleFields : Schema :=
  [⟨none, 16, .bytes⟩, ⟨some "foo", 16, .bytes⟩, ⟨none, 8, .bytes⟩,
   ⟨some "bar", 16, .bytes⟩]

/-- Embeds `ReservedSimpleBitfield(foo=b"qq", bar=b"aa")`. -/
def reservedSimpleRec : Record :=
  [("foo", .vbytes [113, 113]), ("bar", .vbytes [97, 97])]

/-- The input `b"zzqqzaa"`. -/
def c5Data : List Nat := [122, 122, 113, 113, 122, 97, 97]

/-- A bit-packed schema with two 4-bit *signed* fields. -/
def intPairFields : Schema := [⟨some "a", 4, .int⟩, ⟨some "b", 4, .int⟩]

/-- The record `a = -1, b = 0`, well-typed for `intPairFields` (−1 fits a
4-bit two's-complement field). -/
def intPairRec : Record := [("a", .vint (-1)), ("b", .vint 0)]

/-- The claim C3 schema `a(4 u), b(12 u)`. -/
def c3Fields : Schema := [⟨some "a", 4, .uint⟩, ⟨some "b", 12, .uint⟩]

/-- The claim C3 record `a = 0x8, b = 0x0D`. -/
def c3Rec : Record := [("a", .vint 8), ("b", .vint 13)]

theorem wtReservedSimple : WTRecord true reservedSimpleFields reservedSimpleRec := by
  refine .consReserved _ _ _ _ rfl (by decide) ?_
  refine .consNamed _ _ _ _ "foo" (.vbytes [113, 113]) rfl (by decide) rfl ?_ ?_
  · exact .vbytes _ _ _ (by decide) (by decide) (by decide)
  · refine .consReserved _ _ _ _ rfl (by decide) ?_
    refine .consNamed _ _ _ _ "bar" (.vbytes [97, 97]) rfl (by decide) rfl ?_ (.nil _ _)
    exact .vbytes _ _ _ (by decide) (by decide) (by decide)

theorem wtIntPair : WTRecord false intPairFields intPairRec := by
  refine .consNamed _ _ _ _ "a" (.vint (-1)) rfl (by decide) rfl ?_ ?_
  · exact .vint _ _ _ (by decide) (by decide) (by simp)
  · refine .consNamed _ _ _ _ "b" (.vint 0) rfl (by decide) rfl ?_ (.nil _ _)
    exact .vint _ _ _ (by decide) (by decide) (by simp)

/-! ## C1: codec round-trip -/

/-- C1 (amended): for every schema whose widths sum to a byte multiple, with
distinct field names and every *signed* field byte-aligned, and every
well-typed record value, decoding the serialized bytes succeeds and yields a
record equal to the original on every non-reserved field. -/
theorem c1_roundtrip {fs : Schema} {r : Record} (hwt : WTRecord true fs r)
    (hsum : sumBits fs % 8 = 0) (hnodup : (fieldKeyList fs).Nodup) :
    ∃ bs r', toBytes fs r = some bs ∧ fromBytes fs bs = .ok r' ∧ REquiv fs r r' := by
  obtain ⟨bs, henc, _, _, _⟩ := toBytes_facts (wtRecord_allFF hwt) hsum
  obtain ⟨r', hdec, he⟩ := codec_roundtrip_facts (wtRecord_allFF hwt) hsum hnodup henc []
  rw [List.append_nil] at hdec
  exact ⟨bs, r', henc, hdec, he⟩

theorem c1_roundtrip_witness :
    ∃ bs r', toBytes reservedSimpleFields reservedSimpleRec = some bs ∧
      fromBytes reservedSimpleFields bs = .ok r' ∧
      REquiv reservedSimpleFields reservedSimpleRec r' :=
  c1_roundtrip wtReservedSimple (by decide) (by decide)

/-- C1 as stated is false: on the bit-packed schema with two 4-bit signed
fields, the well-typed record `a = -1, b = 0` serializes to the byte `0xF0`,
which decodes to `a = 15, b = 0` — the sub-byte signed field comes back as
the unsigned value of its low bits, not as `-1`. -/
theorem c1_counterexample :
    WTRecord false intPairFields intPairRec ∧
    sumBits intPairFields % 8 = 0 ∧
    (fieldKeyList intPairFields).Nodup ∧
    toBytes intPairFields intPairRec = some [240] ∧
    fromBytes intPairFields [240] = .ok [("b", .vint 0), ("a", .vint 15)] ∧
    rfind intPairRec "a" = some (.vint (-1)) ∧
    ¬ REquiv intPairFields intPairRec [("b", .vint 0), ("a", .vint 15)] := by
  refine ⟨wtIntPair, by decide, by decide, by rfl, by rfl, by rfl, ?_⟩
  intro h
  cases h with
  | consReserved _ _ _ _ hname _ => simp [intPairFields] at hname
  | consNamed _ _ _ _ n v₁ v₂ hname hv₁ hv₂ hvv _ =>
    have hn : n = "a" := by
      simp [intPairFields] at hname
      exact hname.symm
    subst hn
    rw [show rfind intPairRec "a" = some (.vint (-1)) from rfl] at hv₁
    rw [show rfind [("b", Value.vint 0), ("a", Value.vint 15)] "a" = some (.vint 15)
      from rfl] at hv₂
    cases Option.some.inj hv₁
    cases Option.some.inj hv₂
    cases hvv

/-! ## C2: serialized length -/

/-- C2: for every schema (widths summing to a byte multiple, as the data
model requires) and every well-typed record value, `Bitfield.to_bytes`
produces exactly `total_bytes` bytes, where `total_bytes` is the sum of the
field widths divided by 8.  Holds on both codec paths and with no
byte-alignment requirement on signed fields (`st` arbitrary). -/
theorem c2_serialize_length {st : Bool} {fs : Schema} {r : Record}
    (hwt : WTRecord st fs r) (hsum : sumBits fs % 8 = 0) :
    ∃ bs, toBytes fs r = some bs ∧ bs.length = totalBytes fs ∧
      8 * totalBytes fs = sumBits fs := by
  obtain ⟨bs, h1, h2, h3, _⟩ := toBytes_facts (wtRecord_allFF hwt) hsum
  exact ⟨bs, h1, h2, by omega⟩

theorem c2_serialize_length_witness :
    ∃ bs, toBytes reservedSimpleFields reservedSimpleRec = some bs ∧
      bs.length = totalBytes reservedSimpleFields ∧
      8 * totalBytes reservedSimpleFields = sumBits reservedSimpleFields :=
  c2_serialize_length wtReservedSimple (by decide)

/-! ## C3: bit-packed byte order -/

/-- C3 as stated is false: encoding `a = 0x8, b = 0x0D` on the schema
`a(4 u), b(12 u)` does *not* produce the bytes `0x80 0x0D`. -/
theorem c3_counterexample :
    toBytes c3Fields c3Rec ≠ some [0x80, 0x0D] := by
  intro h
  have heq : toBytes c3Fields c3Rec = some [0x0D, 0x80] := by rfl
  rw [heq] at h
  simp at h

/-- C3 (amended): encoding `a = 0x8, b = 0x0D` on `a(4 u), b(12 u)` packs
the 16-bit group integer `(0x8 <<< 12) ||| 0x0D = 0x800D` and emits it
little-endian, producing exactly the bytes `0x0D 0x80`. -/
theorem c3_bitpacked_bytes :
    toBytes c3Fields c3Rec = some [0x0D, 0x80] ∧
    ((0x8 <<< 12) ||| 0x0D : Nat) = 0x800D ∧
    natToBytes 0x800D 2 = [0x0D, 0x80] := by
  refine ⟨by rfl, by decide, by decide⟩

/-! ## C4: raw-bytes field thickness -/

/-- C4 as stated is false: a raw-bytes value *longer* than the field's
width is not truncated — `to_bytes_bytes` returns it unchanged, so an
8-bit bytes field holding 2 bytes serializes to 2 bytes, not `8/8 = 1`. -/
theorem c4_counterexample :
    getValue [("x", .vbytes [65, 66])] ⟨some "x", 8, .bytes⟩ = some [65, 66] ∧
    ([65, 66] : List Nat).length ≠ 8 / 8 := by
  refine ⟨by rfl, by decide⟩

/-- C4 (amended): for a raw-bytes field of width `w` bits (`w` a positive
byte multiple), a value no longer than `w/8` bytes is right-padded with NUL
bytes to exactly `w/8` bytes; a longer value is emitted unchanged (no
truncation). -/
theorem c4_bytes_padding {bs : List Nat} {w : Nat} {r : Record} {n : String}
    (h8 : w % 8 = 0) (hpos : 0 < w) (hfind : rfind r n = some (.vbytes bs)) :
    getValue r ⟨some n, w, .bytes⟩ = some (toBytesBytes bs (w / 8)) ∧
    (bs.length ≤ w / 8 →
      toBytesBytes bs (w / 8) = bs ++ List.replicate (w / 8 - bs.length) 0 ∧
      (toBytesBytes bs (w / 8)).length = w / 8) ∧
    (w / 8 ≤ bs.length → toBytesBytes bs (w / 8) = bs) := by
  refine ⟨?_, ?_, ?_⟩
  · have hnb : (w - 1) / 8 + 1 = w / 8 := numBytes_eq_of_dvd hpos h8
    simp [getValue, hfind, encValue, primToBytes, hnb]
  · intro hle
    refine ⟨rfl, ?_⟩
    simp [toBytesBytes]
    omega
  · intro hge
    simp [toBytesBytes]
    omega

theorem c4_bytes_padding_witness :
    getValue [("x", .vbytes [104])] ⟨some "x", 16, .bytes⟩ =
      some (toBytesBytes [104] (16 / 8)) ∧
    toBytesBytes [104] (16 / 8) = [104, 0] := by
  have h := @c4_bytes_padding [104] 16 [("x", .vbytes [104])] "x"
    (by decide) (by decide) (by rfl)
  exact ⟨h.1, by decide⟩

/-! ## C5: reserved bytes are consumed positionally -/

/-- C5: parsing `reserved(16), foo(16 bytes), reserved(8), bar(16 bytes)` on
the 7-byte input `b"zzqqzaa"` reads and discards the reserved bytes
positionally and yields `foo = b"qq"` and `bar = b"aa"`. -/
theorem c5_reserved_decode :
    fromBytes reservedSimpleFields c5Data =
      .ok [("foo", .vbytes [113, 113]), ("bar", .vbytes [97, 97])] ∧
    (fromBytes reservedSimpleFields c5Data).map (fun r => rfind r "foo") =
      .ok (some (.vbytes [113, 113])) ∧
    (fromBytes reservedSimpleFields c5Data).map (fun r => rfind r "bar") =
      .ok (some (.vbytes [97, 97])) := by
  refine ⟨by rfl, by rfl, by rfl⟩

/-! ## C6: engine configuration -/

/-- C6: the claim describes the evident intent, but `LifxBackend.__init__`
assigns the literal `3` to both attributes, ignoring its `timeout` and
`tries` arguments entirely; constructing the backend with `timeout=10,
tries=5` still yields `timeout = 3`, `tries = 3`, and a retry spacing of
`3 / 3 = 1` second. -/
theorem c6_timeout_tries_ignored :
    lifxBackendInit [108, 99, 104, 116] 10 5 =
      { sourceId := [108, 99, 104, 116], timeout := 3, tries := 3 } ∧
    (lifxBackendInit [108, 99, 104, 116] 10 5).timeout ≠ 10 ∧
    (lifxBackendInit [108, 99, 104, 116] 10 5).tries ≠ 5 ∧
    retryInterval (lifxBackendInit [108, 99, 104, 116] 10 5) = 1 := by
  refine ⟨rfl, by norm_num [lifxBackendInit], by norm_num [lifxBackendInit], ?_⟩
  norm_num [retryInterval, lifxBackendInit]

/-! ## C9: hue scaling -/

/-- C9 as stated is false: `fade_color` computes `int(h * 65535 / 360)` —
truncation, not rounding.  At `h = 13` the exact value is `2366.5416…`;
the code produces 2366 while `round` gives 2367. -/
theorem c9_counterexample :
    fadeColorRawHue 13 = 2366 ∧ specRawHue 13 = 2367 ∧
    fadeColorRawHue 13 ≠ specRawHue 13 := by
  have h1 : fadeColorRawHue 13 = 2366 := by
    unfold fadeColorRawHue pyInt
    rw [if_pos (by norm_num)]
    norm_num
  have h2 : specRawHue 13 = 2367 := by
    unfold specRawHue
    rw [round_eq]
    norm_num
  exact ⟨h1, h2, by rw [h1, h2]; decide⟩

/-- C9 (amended): for every hue `h ∈ [0, 360)`, the raw hue written into
the wire HSBK record is `⌊h·65535/360⌋` (truncation toward zero, via
Python's `int()`), which always fits the 16-bit field: it lies in
`[0, 65534]`. -/
theorem c9_hue_truncation (h s b : ℚ) (h0 : 0 ≤ h) (hlt : h < 360) :
    rfind (fadeColorHSBK h s b) "hue" = some (.vint ⌊h * 65535 / 360⌋) ∧
    0 ≤ ⌊h * 65535 / 360⌋ ∧ ⌊h * 65535 / 360⌋ ≤ 65534 := by
  have hq0 : (0 : ℚ) ≤ h * 65535 / 360 := by positivity
  refine ⟨?_, Int.floor_nonneg.mpr hq0, ?_⟩
  · simp only [fadeColorHSBK, rfind, List.find?, fadeColorRawHue, pyInt, if_pos hq0]
    rfl
  · have hqlt : h * 65535 / 360 < 65535 := by
      rw [div_lt_iff (by norm_num : (0 : ℚ) < 360)]
      nlinarith
    have : ⌊h * 65535 / 360⌋ < 65535 := by
      apply Int.floor_lt.mpr
      push_cast
      exact hqlt
    omega

theorem c9_hue_truncation_witness :
    rfind (fadeColorHSBK 13 1 1) "hue" = some (.vint ⌊(13 : ℚ) * 65535 / 360⌋) ∧
    0 ≤ ⌊(13 : ℚ) * 65535 / 360⌋ ∧ ⌊(13 : ℚ) * 65535 / 360⌋ ≤ 65534 :=
  c9_hue_truncation 13 1 1 (by norm_num) (by norm_num)

/-! ## C8: acknowledgement bookkeeping -/

theorem alookup_cons_self {α β : Type} [DecidableEq α] (k : α) (v : β)
    (l : List (α × β)) : alookup ((k, v) :: l) k = some v := by
  simp [alookup]

theorem alookup_cons_ne {α β : Type} [DecidableEq α] {k k' : α} (h : k' ≠ k)
    (v : β) (l : List (α × β)) : alookup ((k, v) :: l) k' = alookup l k' := by
  simp [alookup, List.find?_cons, h.symm]

theorem alookup_mem {α β : Type} [DecidableEq α] {l : List (α × β)} {k : α} {b : β}
    (h : alookup l k = some b) : (k, b) ∈ l := by
  unfold alookup at h
  cases hf : l.find? (fun p => decide (p.1 = k)) with
  | none => rw [hf] at h; cases h
  | some p =>
    rw [hf] at h
    have hp1 : p.1 = k := by simpa using List.find?_some hf
    have hp2 : p.2 = b := Option.some.inj h
    have hm := List.mem_of_find?_eq_some hf
    rwa [show (k, b) = p by rw [← hp1, ← hp2]]

theorem mem_alookup {α β : Type} [DecidableEq α] {l : List (α × β)} {k : α} {b : β}
    (hm : (k, b) ∈ l) (hnd : (l.map Prod.fst).Nodup) : alookup l k = some b := by
  induction l with
  | nil => simp at hm
  | cons p l ih =>
    rw [List.map_cons, List.nodup_cons] at hnd
    rcases List.mem_cons.mp hm with heq | hm'
    · rw [← heq]
      exact alookup_cons_self k b l
    · have hk : k ∈ l.map Prod.fst := List.mem_map.mpr ⟨(k, b), hm', rfl⟩
      have hne : k ≠ p.1 := fun he => hnd.1 (he ▸ hk)
      obtain ⟨p1, p2⟩ := p
      rw [alookup_cons_ne hne]
      exact ih hm' hnd.2

theorem alookup_dupdate_self {α β : Type} [DecidableEq α] {l : List (α × β)} {k : α}
    {w : β} (h : alookup l k = some w) (v : β) : alookup (dupdate l k v) k = some v := by
  induction l with
  | nil => simp [alookup] at h
  | cons p l ih =>
    obtain ⟨p1, p2⟩ := p
    by_cases hk : p1 = k
    · subst hk
      simp only [dupdate, List.map_cons, if_pos rfl]
      exact alookup_cons_self p1 v _
    · have hne : k ≠ p1 := fun he => hk he.symm
      rw [alookup_cons_ne hne] at h
      simp only [dupdate, List.map_cons, if_neg hk]
      rw [alookup_cons_ne hne]
      exact ih h

theorem alookup_dremove_self {α β : Type} [DecidableEq α] (l : List (α × β)) (k : α) :
    alookup (dremove l k) k = none := by
  induction l with
  | nil => rfl
  | cons p l ih =>
    obtain ⟨p1, p2⟩ := p
    unfold dremove at ih ⊢
    rw [List.filter_cons]
    by_cases hk : p1 = k
    · subst hk
      rw [if_neg (by simp)]
      exact ih
    · rw [if_pos (by simpa using hk), alookup_cons_ne (fun he => hk he.symm)]
      exact ih

theorem alookup_filter_some {α β : Type} [DecidableEq α] {l : List (α × β)}
    {q : α × β → Bool} {k : α} {b : β} (h : alookup (l.filter q) k = some b) :
    (k, b) ∈ l ∧ q (k, b) = true := by
  have hm := alookup_mem h
  exact ⟨(List.mem_filter.mp hm).1, (List.mem_filter.mp hm).2⟩

/-- Consistency of the two acknowledgement tables: dict keys are unique,
every sequence-table binding is recorded in its future's key list, and every
recorded key is bound in the sequence table to that future. -/
def AckInv {α : Type} [DecidableEq α] (s : ProtoAckState α) : Prop :=
  (s.seqFutures.map Prod.fst).Nodup ∧
  (s.ackFutures.map Prod.fst).Nodup ∧
  (∀ e ∈ s.seqFutures, ∃ l, alookup s.ackFutures e.2 = some l ∧ e.1 ∈ l) ∧
  (∀ e ∈ s.ackFutures, ∀ k ∈ e.2, alookup s.seqFutures k = some e.1)

/-- C8: in any consistent table state,
(i) registering a fresh (address, sequence) key for an in-flight ack future
binds it in `_seq_futures` to that same future and appends it to the
future's key list;
(ii) an `Acknowledgement` datagram matching any bound key resolves the
future (calls `set_result` exactly when it is not yet done);
(iii) `_remove_ack` (run by `wait_ack`'s `finally:` on resolution and by
`cancel_ack` on cancellation) removes *every* sequence-table entry bound to
the future and the future's own entry — no entries leak; and
(iv) after that cleanup, a further ack for any of the old keys finds no
entry and is silently dropped, so the operation resolves at most once. -/
theorem c8_ack_bookkeeping {α : Type} [DecidableEq α] (s : ProtoAckState α)
    (ack : Nat) (hinv : AckInv s) :
    (∀ (addr : α) (seq : Nat) (keys : List (α × Nat)),
      alookup s.ackFutures ack = some keys →
      alookup s.seqFutures (addr, seq) = none →
      ∃ s', registerAckSeq s ack addr seq = .ok s' ∧
        alookup s'.seqFutures (addr, seq) = some ack ∧
        alookup s'.ackFutures ack = some (keys ++ [(addr, seq)])) ∧
    (∀ k : α × Nat, alookup s.seqFutures k = some ack → ack ∉ s.done →
      datagramReceivedAck s k.1 k.2 = .ok { s with done := ack :: s.done }) ∧
    (∀ k : α × Nat, alookup (removeAck s ack).seqFutures k ≠ some ack) ∧
    alookup (removeAck s ack).ackFutures ack = none ∧
    (∀ k : α × Nat, alookup s.seqFutures k = some ack →
      alookup (removeAck s ack).seqFutures k = none ∧
      datagramReceivedAck (removeAck s ack) k.1 k.2 = .ok (removeAck s ack)) := by
  obtain ⟨hnds, hnda, hinv3, hinv4⟩ := hinv
  refine ⟨?_, ?_, ?_, ?_, ?_⟩
  · intro addr seq keys hks hnone
    refine ⟨{ s with
        ackFutures := dupdate s.ackFutures ack (keys ++ [(addr, seq)]),
        seqFutures := ((addr, seq), ack) :: s.seqFutures }, ?_, ?_, ?_⟩
    · simp only [registerAckSeq, hks, hnone, Option.isSome_none, Bool.false_eq_true,
        if_false]
    · exact alookup_cons_self _ _ _
    · exact alookup_dupdate_self hks _
  · intro k hk hnd
    simp only [datagramReceivedAck]
    rw [show ((k.1, k.2) : α × Nat) = k from rfl, hk]
    simp [hnd]
  · intro k hcontra
    unfold removeAck at hcontra
    cases hks : alookup s.ackFutures ack with
    | none =>
      rw [hks] at hcontra
      obtain ⟨l, hl, _⟩ := hinv3 (k, ack) (alookup_mem hcontra)
      rw [hks] at hl
      cases hl
    | some keys =>
      rw [hks] at hcontra
      obtain ⟨hmem, hq⟩ := alookup_filter_some hcontra
      obtain ⟨l, hl, hkl⟩ := hinv3 (k, ack) hmem
      rw [hks] at hl
      cases Option.some.inj hl
      simp at hq
      exact hq hkl
  · unfold removeAck
    cases hks : alookup s.ackFutures ack with
    | none => exact hks
    | some keys => exact alookup_dremove_self _ _
  · intro k hk
    have hmem : (k, ack) ∈ s.seqFutures := alookup_mem hk
    obtain ⟨l, hl, hkl⟩ := hinv3 (k, ack) hmem
    have hseqnone : alookup (removeAck s ack).seqFutures k = none := by
      unfold removeAck
      rw [hl]
      cases halk : alookup (s.seqFutures.filter fun kv => decide (kv.1 ∉ l)) k with
      | none => rfl
      | some b =>
        exfalso
        obtain ⟨hmem', hq⟩ := alookup_filter_some halk
        have : alookup s.seqFutures k = some b := mem_alookup hmem' hnds
        rw [hk] at this
        cases Option.some.inj this
        simp at hq
        exact hq hkl
    refine ⟨hseqnone, ?_⟩
    simp only [datagramReceivedAck]
    rw [show ((k.1, k.2) : α × Nat) = k from rfl, hseqnone]

/-- A one-operation protocol state: ack future `0` owns the single sequence
key `((addr 7), seq 42)`. -/
def c8State : ProtoAckState Nat :=
  { seqFutures := [((7, 42), 0)], ackFutures := [(0, [(7, 42)])],
    done := [], nextAck := 1 }

theorem c8Inv : AckInv c8State := by
  refine ⟨by decide, by decide, ?_, ?_⟩
  · intro e he
    simp only [c8State, List.mem_singleton] at he
    subst he
    exact ⟨[(7, 42)], rfl, by decide⟩
  · intro e he k hk
    simp only [c8State, List.mem_singleton] at he
    subst he
    simp only [List.mem_singleton] at hk
    subst hk
    rfl

theorem c8_ack_bookkeeping_witness :
    AckInv c8State ∧
    alookup (removeAck c8State 0).seqFutures (7, 42) = none ∧
    alookup (removeAck c8State 0).ackFutures 0 = none :=
  ⟨c8Inv,
   ((c8_ack_bookkeeping c8State 0 c8Inv).2.2.2.2 (7, 42) rfl).1,
   (c8_ack_bookkeeping c8State 0 c8Inv).2.2.2.1⟩
